import Mathlib

/-!
Verification of the SwissTable-style open-addressing hash map of
`src/util/collections/hashmap.rs`.

The Rust map stores one contiguous byte buffer split into a slot region and a
control-byte region.  Byte offsets into the slot region are in bijection with
slot indices (`offset = index * size_of::<Slot<K, V>>`), and the padding that
`init_data` inserts between the two regions is zero whenever the slot capacity
is a multiple of 16 (which `init_data` enforces), so `capacity_impl` of an
`init_data` buffer is exactly the rounded capacity.  The shallow embedding
therefore represents the buffer as the pair of its two regions:

* `ctrl`  : the list of control bytes (one `Nat` in `0 ≤ b < 256` per slot);
* `slots` : the list of slots, where `none` models a slot whose key/value
  bytes are uninitialized (`MaybeUninit`) and `some (k, v)` a live pair.

Machine integers are modelled as `Nat` with explicit wrap-around where the
source can overflow (the hash is a `u64`, so `h1`/`h2` reduce it mod `2 ^ 64`
first).  Fallible allocation is modelled by an explicit `alloc_ok : Bool`
argument (whether the single allocation a call performs succeeds), and the
two internal panic sites of the source (the `unwrap`/`assert!` during rehash
in `reserve` and the `unwrap` of the insertion retry in `insert`) are
modelled by an `Option` result, `none` meaning the code would panic.
-/

namespace Maestro

/-- `CTRL_EMPTY` of the source: a vacant, never-reused slot (`0x80`). -/
def CTRL_EMPTY : Nat := 128

/-- `CTRL_DELETED` of the source: a tombstone (`0xfe`). -/
def CTRL_DELETED : Nat := 254

/-- Allocation failure, the single error kind of the map (`AllocError`). -/
inductive AllocError where
  | alloc
deriving DecidableEq

deriving instance DecidableEq for Except

/-- The two regions of the map's byte buffer (see the module comment). -/
structure TableData (K V : Type) where
  ctrl : List Nat
  slots : List (Option (K × V))
deriving DecidableEq

/-- `HashMap` of the source: the buffer plus the live-element count. -/
structure HashMap (K V : Type) where
  data : TableData K V
  len : Nat
deriving DecidableEq

/-- `capacity_impl`: the number of slots of the buffer. -/
def capacity_impl {K V : Type} (d : TableData K V) : Nat :=
  d.ctrl.length

/-- Control byte of the slot at index `idx` (in-range under well-formedness;
the default is never read by the operations below). -/
def ctrl_at {K V : Type} (d : TableData K V) (idx : Nat) : Nat :=
  d.ctrl.getD idx 128

/-- Control byte for group `group` and in-group index `i`, as read by
`get_ctrl` (which loads the 16 bytes of a group at once). -/
def ctrl_byte {K V : Type} (d : TableData K V) (group i : Nat) : Nat :=
  ctrl_at d (group * 16 + i)

/-- Slot at index `idx`; `none` models uninitialized slot bytes. -/
def slot_at {K V : Type} (d : TableData K V) (idx : Nat) : Option (K × V) :=
  d.slots.getD idx none

/-- `h1`: the group-selector part of the (64-bit) hash, `hash >> 7`. -/
def h1 (h : Nat) : Nat :=
  h % 2 ^ 64 / 128

/-- `h2`: the control part of the (64-bit) hash, `hash & 0x7f`,
i.e. `hash % 128`. -/
def h2 (h : Nat) : Nat :=
  h % 128

/-- Occupancy test on a control byte: high bit clear
(`group_match_used` tests `b & 0x80 != 0x80`). -/
def used_ctrl (b : Nat) : Bool :=
  b &&& 128 != 128

/-- The byte test of `group_match_unused`: with `deleted` set, any byte with
the high bit set (`EMPTY` or `DELETED`); otherwise only `CTRL_EMPTY`. -/
def is_unused (deleted : Bool) (b : Nat) : Bool :=
  if deleted then b &&& 128 == 128 else b == 128

/-- `group_match_unused`: index of the first unused byte of a group
(`Mask::first_set` returns the lowest set lane). -/
def group_match_unused {K V : Type} (d : TableData K V) (group : Nat)
    (deleted : Bool) : Option Nat :=
  (List.range 16).find? (fun i => is_unused deleted (ctrl_byte d group i))

/-- Candidate test of the key-search loop of `find_slot`: the control byte
matches `h2v` and the slot stores a key equal to `k`.  The source iterates
`group_match_byte` (ascending indices) and compares the stored key at each
candidate; the first index satisfying both is the first hit of that loop. -/
def slot_matches {K V : Type} [DecidableEq K] (d : TableData K V)
    (group i : Nat) (h2v : Nat) (k : K) : Bool :=
  ctrl_byte d group i == h2v &&
    match slot_at d (group * 16 + i) with
    | some (k', _) => decide (k' = k)
    | none => false

/-- First slot of a group whose control byte matches `h2v` and whose stored
key equals `k` (the inner `for` loop of `find_slot`). -/
def group_find_key {K V : Type} [DecidableEq K] (d : TableData K V)
    (group : Nat) (h2v : Nat) (k : K) : Option Nat :=
  (List.range 16).find? (fun i => slot_matches d group i h2v k)

/-- The probe loop of `find_slot`.  `gc` is the group count, `sg` the start
group; the loop advances by whole groups, wrapping mod `gc`, and gives up
when it would re-enter `sg`.  The `fuel` argument only makes the recursion
structural; `find_slot` passes `gc`, which is never exhausted (the wrap test
fires first), as the fuel-stability theorem below proves. -/
def find_slot_aux {K V : Type} [DecidableEq K] (d : TableData K V) (k : K)
    (h2v : Nat) (deleted : Bool) (gc sg : Nat) :
    Nat → Nat → Option (Nat × Bool)
  | 0, _ => none
  | fuel + 1, g =>
    match group_find_key d g h2v k with
    | some i => some (g * 16 + i, true)
    | none =>
      match group_match_unused d g deleted with
      | some i => some (g * 16 + i, false)
      | none =>
        let g' := (g + 1) % gc
        if g' = sg then none
        else find_slot_aux d k h2v deleted gc sg fuel g'

/-- `find_slot` with an explicit iteration budget. -/
def find_slot_fuel {K V : Type} [DecidableEq K] (d : TableData K V) (k : K)
    (hsh : Nat) (deleted : Bool) (fuel : Nat) : Option (Nat × Bool) :=
  let gc := capacity_impl d / 16
  if gc = 0 then none
  else find_slot_aux d k (h2 hsh) deleted gc (h1 hsh % gc) fuel (h1 hsh % gc)

/-- `find_slot`: the slot for `key`/`hash`.  Returns the slot index and
whether it is occupied by an equal key, or `none` when the probe wrapped
without finding a key match or a usable slot. -/
def find_slot {K V : Type} [DecidableEq K] (d : TableData K V) (k : K)
    (hsh : Nat) (deleted : Bool) : Option (Nat × Bool) :=
  find_slot_fuel d k hsh deleted (capacity_impl d / 16)

/-- Smallest multiple of 16 that is `≥ n` (`usize::next_multiple_of(16)`,
specialised to the group size as in `init_data`). -/
def nm16 (n : Nat) : Nat :=
  if n % 16 = 0 then n else n + (16 - n % 16)

/-- Structural helper for `np2`: doubling scan for the next power of two. -/
def np2_go : Nat → Nat → Nat → Nat
  | 0, _, p => p
  | fuel + 1, n, p => if n ≤ p then p else np2_go fuel n (2 * p)

/-- `usize::next_power_of_two`: smallest power of two `≥ n` (1 for `n = 0`).
The fuel `n` always suffices since `n ≤ 2 ^ n`. -/
def np2 (n : Nat) : Nat :=
  np2_go n n 1

/-- `init_data`: a fresh buffer for `capacity` slots, rounded up to a
multiple of the group size, all control bytes `EMPTY`, all slots
uninitialized. -/
def init_data (K V : Type) (capacity : Nat) : TableData K V :=
  { ctrl := List.replicate (nm16 capacity) 128,
    slots := List.replicate (nm16 capacity) none }

/-- `HashMap::new`: the empty map, no allocation. -/
def new (K V : Type) : HashMap K V :=
  { data := { ctrl := [], slots := [] }, len := 0 }

/-- `HashMap::with_capacity` (allocation success case). -/
def with_capacity (K V : Type) (capacity : Nat) : HashMap K V :=
  { data := init_data K V capacity, len := 0 }

/-- `HashMap::get`: the value stored with `key`, probing without tombstone
reuse; `none` both when the probe reports absence and when it stops at an
empty slot. -/
def get {K V : Type} [DecidableEq K] (hf : K → Nat) (m : HashMap K V)
    (k : K) : Option V :=
  match find_slot m.data k (hf k) false with
  | some (idx, true) => (slot_at m.data idx).map (·.2)
  | _ => none

/-- `HashMap::get_mut`: same probe as `get` (the source duplicates the body,
returning a mutable reference instead). -/
def get_mut {K V : Type} [DecidableEq K] (hf : K → Nat) (m : HashMap K V)
    (k : K) : Option V :=
  match find_slot m.data k (hf k) false with
  | some (idx, true) => (slot_at m.data idx).map (·.2)
  | _ => none

/-- `HashMap::contains_key`. -/
def contains_key {K V : Type} [DecidableEq K] (hf : K → Nat)
    (m : HashMap K V) (k : K) : Bool :=
  (get hf m k).isSome

/-- `HashMap::remove`: returns the post-state and the removed value.  On a
hit, the vacated control byte is `EMPTY` when the slot's own group still has
an `EMPTY` byte (checked before the removal), `DELETED` otherwise. -/
def remove {K V : Type} [DecidableEq K] (hf : K → Nat) (m : HashMap K V)
    (k : K) : HashMap K V × Option V :=
  match find_slot m.data k (hf k) false with
  | some (idx, true) =>
    let b := match group_match_unused m.data (idx / 16) false with
             | some _ => 128
             | none => 254
    ({ data := { ctrl := m.data.ctrl.set idx b,
                 slots := m.data.slots.set idx none },
       len := m.len - 1 },
     (slot_at m.data idx).map (·.2))
  | _ => (m, none)

/-- One entry of the sweep of `Iter`: slot `i` of group `g` is yielded when
its control byte passes the occupancy test. -/
def sweep_entry {K V : Type} (d : TableData K V) (g i : Nat) :
    Option (K × V) :=
  if used_ctrl (ctrl_byte d g i) then slot_at d (g * 16 + i) else none

/-- All live entries in sweep order: groups ascending, in-group indices
ascending.  This is the list `self.iter()` produces (the iterator-unfolding
result below proves the stateful `Iter` yields exactly this list). -/
def occupied_entries {K V : Type} (d : TableData K V) : List (K × V) :=
  (List.range (capacity_impl d / 16)).flatMap (fun g =>
    (List.range 16).filterMap (fun i => sweep_entry d g i))

/-- One step of the rehash loop of `reserve`: find a slot for `kv` in the
fresh buffer (tombstone-reusing probe), write its control byte and move the
pair in.  `none` models the `unwrap` panic (no slot) or the
`assert!(!occupied)` failure (key already present). -/
def rehash_slot {K V : Type} [DecidableEq K] (hf : K → Nat)
    (d : TableData K V) (kv : K × V) : Option (TableData K V) :=
  match find_slot d kv.1 (hf kv.1) true with
  | some (idx, false) =>
    some { ctrl := d.ctrl.set idx (h2 (hf kv.1)),
           slots := d.slots.set idx (some kv) }
  | some (_, true) => none
  | none => none

/-- The whole rehash loop of `reserve` over the live entries in iteration
order. -/
def rehash_all {K V : Type} [DecidableEq K] (hf : K → Nat)
    (entries : List (K × V)) (d : TableData K V) : Option (TableData K V) :=
  entries.foldlM (fun d kv => rehash_slot hf d kv) d

/-- `HashMap::reserve`.  `alloc_ok` tells whether the one allocation the call
may perform succeeds; the result is the post-state and the reported
`AllocResult`, or `none` when the internal rehash would panic. -/
def reserve {K V : Type} [DecidableEq K] (hf : K → Nat) (m : HashMap K V)
    (additional : Nat) (alloc_ok : Bool) :
    Option (HashMap K V × Except AllocError Unit) :=
  let new_capacity := np2 (m.len + additional)
  if new_capacity ≤ capacity_impl m.data then some (m, Except.ok ())
  else if alloc_ok = false then some (m, Except.error AllocError.alloc)
  else
    match rehash_all hf (occupied_entries m.data) (init_data K V new_capacity) with
    | none => none
    | some d => some ({ data := d, len := m.len }, Except.ok ())

/-- `HashMap::insert`.  The `fuel` bounds the retry recursion of the source
(which re-enters `insert` after growing); the success theorems use fuel 2,
matching the one retry the source performs.  On an occupied hit the value is
overwritten in place and the key is not rewritten. -/
def insert {K V : Type} [DecidableEq K] (hf : K → Nat) :
    Nat → HashMap K V → K → V → Bool →
    Option (HashMap K V × Except AllocError (Option V))
  | 0, _, _, _, _ => none
  | fuel + 1, m, k, v, alloc_ok =>
    match find_slot m.data k (hf k) true with
    | some (idx, true) =>
      match slot_at m.data idx with
      | some (k0, v0) =>
        some ({ data := { ctrl := m.data.ctrl,
                          slots := m.data.slots.set idx (some (k0, v)) },
                len := m.len },
              Except.ok (some v0))
      | none => none
    | some (idx, false) =>
      some ({ data := { ctrl := m.data.ctrl.set idx (h2 (hf k)),
                        slots := m.data.slots.set idx (some (k, v)) },
              len := m.len + 1 },
            Except.ok none)
    | none =>
      match reserve hf m 1 alloc_ok with
      | none => none
      | some (m1, Except.error e) => some (m1, Except.error e)
      | some (m1, Except.ok ()) =>
        match insert hf fuel m1 k v alloc_ok with
        | some (m2, Except.ok _) => some (m2, Except.ok none)
        | _ => none

/-- Per-group body of `HashMap::retain` (with the predicate modelled as a
pure function of key and value).  The replacement byte `b` and the set of
used slots are computed from the group's control bytes before any removal of
the pass touches the group; all removed slots of the group then receive the
same byte `b`, and the removal count is reported. -/
def retain_group {K V : Type} [DecidableEq K] (f : K → V → Bool)
    (d : TableData K V) (g : Nat) : TableData K V × Nat :=
  let b := match group_match_unused d g false with
           | some _ => 128
           | none => 254
  let rem := (List.range 16).filter (fun i =>
    used_ctrl (ctrl_byte d g i) &&
      match slot_at d (g * 16 + i) with
      | some (k, v) => !f k v
      | none => false)
  (rem.foldl (fun d' i =>
      { ctrl := d'.ctrl.set (g * 16 + i) b,
        slots := d'.slots.set (g * 16 + i) none }) d,
   rem.length)

/-- `HashMap::retain`: sweep the groups in ascending order, applying
`retain_group` and decrementing the length by each group's removal count. -/
def retain {K V : Type} [DecidableEq K] (f : K → V → Bool)
    (m : HashMap K V) : HashMap K V :=
  (List.range (capacity_impl m.data / 16)).foldl (fun m' g =>
    let r := retain_group f m'.data g
    { data := r.1, len := m'.len - r.2 }) m

/-- `Index::index`: `get` with the absence case turned into a panic carrying
the source's message. -/
def index {K V : Type} [DecidableEq K] (hf : K → Nat) (m : HashMap K V)
    (k : K) : Except String V :=
  match get hf m k with
  | some v => Except.ok v
  | none => Except.error "no entry found for key"

/-- `IndexMut::index_mut`: `get_mut` with the same panic on absence. -/
def index_mut {K V : Type} [DecidableEq K] (hf : K → Nat) (m : HashMap K V)
    (k : K) : Except String V :=
  match get_mut hf m k with
  | some v => Except.ok v
  | none => Except.error "no entry found for key"

/-- State of `Iter`: current group, cached used-mask of the group (stale
unless `cursor = 0`), cursor within the group, and yield count. -/
structure IterState where
  group : Nat
  mask : List Bool
  cursor : Nat
  count : Nat
deriving DecidableEq

/-- Fresh iterator state (`HashMap::iter`): `Mask::default()` is all-false. -/
def iter_init : IterState :=
  { group := 0, mask := List.replicate 16 false, cursor := 0, count := 0 }

/-- Used-mask of a group, as `Iter::next` computes it from `get_ctrl`. -/
def used_mask {K V : Type} (d : TableData K V) (g : Nat) : List Bool :=
  (List.range 16).map (fun i => used_ctrl (ctrl_byte d g i))

/-- The inner loop of `Iter::next`: find the next used slot, recomputing the
mask on group entry (`cursor = 0`), advancing groups otherwise.  Returns the
group, the found cursor and the mask with that bit cleared. -/
def iter_loop {K V : Type} (d : TableData K V) (gc : Nat) :
    Nat → Nat → List Bool → Nat → Option (Nat × Nat × List Bool)
  | 0, _, _, _ => none
  | fuel + 1, g, mask, cursor =>
    let mask' := if cursor = 0 then used_mask d g else mask
    match mask'.findIdx? (fun b => b) with
    | some c => some (g, c, mask'.set c false)
    | none =>
      if gc ≤ g + 1 then none
      else iter_loop d gc fuel (g + 1) mask 0

/-- `Iter::next`: `none` at the end; otherwise the yielded pair plus the
successor state.  A used slot with uninitialized bytes (impossible on a
well-formed map) would be undefined behaviour in the source; the model stops
the iteration there. -/
def iter_next {K V : Type} (m : HashMap K V) (st : IterState) :
    Option ((K × V) × IterState) :=
  let cap := capacity_impl m.data
  if cap ≤ st.group * 16 + st.cursor then none
  else
    match iter_loop m.data (cap / 16) (cap / 16 + 1) st.group st.mask st.cursor with
    | none => none
    | some (g, c, mask') =>
      match slot_at m.data (g * 16 + c) with
      | some kv =>
        some (kv, { group := g, mask := mask', cursor := c + 1,
                    count := st.count + 1 })
      | none => none

/-- Repeated `Iter::next`, collecting the yielded pairs. -/
def iter_to_list {K V : Type} (m : HashMap K V) :
    Nat → IterState → List (K × V)
  | 0, _ => []
  | fuel + 1, st =>
    match iter_next m st with
    | none => []
    | some (kv, st') => kv :: iter_to_list m fuel st'

/-- A full iteration from a fresh iterator.  The fuel `capacity + 1` covers
every possible yield plus the final `none`. -/
def iter_collect {K V : Type} (m : HashMap K V) : List (K × V) :=
  iter_to_list m (capacity_impl m.data + 1) iter_init

/-- Occupancy of the slot at `idx`. -/
def occupied_at {K V : Type} (d : TableData K V) (idx : Nat) : Bool :=
  used_ctrl (ctrl_at d idx)

/-- Number of occupied slots, counted group-wise to match the sweep. -/
def occ_count {K V : Type} (d : TableData K V) : Nat :=
  ((List.range (capacity_impl d / 16)).map (fun g =>
    ((List.range 16).filter (fun i => used_ctrl (ctrl_byte d g i))).length)).sum

/-- The pair `(k, v)` is stored live in the buffer. -/
def stored_pair {K V : Type} (d : TableData K V) (k : K) (v : V) : Prop :=
  ∃ idx, idx < capacity_impl d ∧ occupied_at d idx = true ∧
    slot_at d idx = some (k, v)

/-- A control byte is one of the three legal states: `EMPTY`, `DELETED`, or
an occupied 7-bit tag. -/
def valid_byte (b : Nat) : Bool :=
  b == 128 || b == 254 || decide (b < 128)

/-- Well-formedness of a map under hash function `hf` (the invariant every
reachable map satisfies; all fields are decidable so that concrete witnesses
can be checked by evaluation):
* the two regions have the same length, a multiple of 16;
* every control byte is a legal state;
* every occupied slot holds a pair whose control byte is the `h2` tag of the
  key's hash, and no group strictly between the key's start group and its
  own group (in probe order) contains an `EMPTY` byte, so the key is
  reachable by the probe;
* unoccupied slots are uninitialized;
* stored keys are pairwise distinct;
* `len` is the number of occupied slots. -/
def wf {K V : Type} [DecidableEq K] (hf : K → Nat) (m : HashMap K V) : Bool :=
  (m.data.slots.length == m.data.ctrl.length) &&
  (capacity_impl m.data % 16 == 0) &&
  m.data.ctrl.all valid_byte &&
  ((List.range (capacity_impl m.data)).all (fun idx =>
    if occupied_at m.data idx then
      match slot_at m.data idx with
      | none => false
      | some (k, _) =>
        (ctrl_at m.data idx == h2 (hf k)) &&
          (let gc := capacity_impl m.data / 16
           let sg := h1 (hf k) % gc
           let g := idx / 16
           (List.range ((g + gc - sg) % gc)).all (fun t =>
             (List.range 16).all (fun j =>
               ctrl_byte m.data ((sg + t) % gc) j != 128)))
    else (slot_at m.data idx).isNone)) &&
  ((List.range (capacity_impl m.data)).all (fun i =>
    (List.range (capacity_impl m.data)).all (fun j =>
      match slot_at m.data i, slot_at m.data j with
      | some (a, _), some (b, _) =>
        !(occupied_at m.data i && occupied_at m.data j) ||
          !(decide (a = b)) || (i == j)
      | _, _ => true))) &&
  (m.len == occ_count m.data)

/-- A group the probe passes through without stopping: no control byte with
a key match, and no unused byte for the probe's `deleted` mode. -/
def group_clean {K V : Type} [DecidableEq K] (d : TableData K V) (k : K)
    (h2v : Nat) (deleted : Bool) (g : Nat) : Prop :=
  (∀ i < 16, slot_matches d g i h2v k = false) ∧
  (∀ i < 16, is_unused deleted (ctrl_byte d g i) = false)

/-- Invariant of the rehash loop of `reserve`: the partially filled fresh
buffer is well formed, contains no tombstone, and stores exactly the entries
inserted so far. -/
def fresh_inv {K V : Type} [DecidableEq K] (hf : K → Nat)
    (d : TableData K V) (P : List (K × V)) : Prop :=
  wf hf { data := d, len := P.length } = true ∧
  (∀ idx, idx < capacity_impl d → ctrl_at d idx ≠ 254) ∧
  (∀ k v, stored_pair d k v ↔ (k, v) ∈ P)

/-- The identity hash on `Nat` keys: this is exactly what the default
`XORHasher` computes on an integer key below `2 ^ 64` (the key's bytes are
folded in at successive byte offsets, reassembling the value). -/
def hf_id : Nat → Nat := fun k => k

/-- A small reachable map: one insertion into the empty map. -/
def sample_map : HashMap Nat Nat :=
  ((insert hf_id 2 (new Nat Nat) 1 10 true).map (·.1)).getD (new Nat Nat)

/-- A reachable full table: keys 0..15 (hashing to group 0) fill the single
group of a capacity-16 map completely. -/
def full_map : HashMap Nat Nat :=
  (List.range 16).foldl
    (fun m i => ((insert hf_id 2 m i i true).map (·.1)).getD m)
    (new Nat Nat)

/-- Reachable state for the duplicate-key scenario: insert keys 0..16 with
value = key (growing the table to capacity 32 and filling group 0), then
remove key 0 (leaving a `DELETED` tombstone in group 0, while key 16 stays
in group 1). -/
def shadow_map : HashMap Nat Nat :=
  (remove hf_id
    ((List.range 17).foldl
      (fun m i => ((insert hf_id 2 m i i true).map (·.1)).getD m)
      (new Nat Nat))
    0).1

/-- The duplicate-key state one step further: `insert(16, 99)` on
`shadow_map` takes the tombstone-shadowing branch and stores a second copy
of key 16 at slot 0, while the first copy `(16, 16)` stays at slot 16. -/
def dup_map : HashMap Nat Nat :=
  ((insert hf_id 2 shadow_map 16 99 true).map (·.1)).getD shadow_map

/-- The duplicate-key state driven to a completely full table: keys 17..31
fill the fifteen remaining slots of the capacity-32 buffer, so the next
insertion's probe fails and forces a growth. -/
def clash_map : HashMap Nat Nat :=
  (List.range' 17 15).foldl
    (fun m i => ((insert hf_id 2 m i i true).map (·.1)).getD m) dup_map

/-- Predicate for slots `retain` removes from group `g`, judged on the
pass's original table `d`. -/
def retain_rem {K V : Type} [DecidableEq K] (f : K → V → Bool)
    (d : TableData K V) (g i : Nat) : Bool :=
  used_ctrl (ctrl_byte d g i) &&
    match slot_at d (g * 16 + i) with
    | some (k, v) => !f k v
    | none => false

/-- The write-back fold of `retain_group`. -/
def retain_writes {K V : Type} (b g : Nat) (l : List Nat)
    (d : TableData K V) : TableData K V :=
  l.foldl (fun d' i =>
    { ctrl := d'.ctrl.set (g * 16 + i) b,
      slots := d'.slots.set (g * 16 + i) none }) d

/-- The sweep test at a flat slot index. -/
def flat_entry {K V : Type} (d : TableData K V) (idx : Nat) :
    Option (K × V) :=
  if used_ctrl (ctrl_at d idx) then slot_at d idx else none

/-- The used-mask of group `g` with the bits below cursor `c` cleared: the
exact mask `Iter` carries between yields. -/
def mask_rest {K V : Type} (d : TableData K V) (g c : Nat) : List Bool :=
  (List.range 16).map (fun i => used_ctrl (ctrl_byte d g i) && decide (c ≤ i))

/-- First used slot index at or after `p`, below `bound`. -/
def first_used {K V : Type} (d : TableData K V) (bound p : Nat) :
    Option Nat :=
  (List.range' p (bound - p)).find? (fun idx => used_ctrl (ctrl_at d idx))

/-- The tail of the sweep from flat position `p`. -/
def entries_from {K V : Type} (d : TableData K V) (bound p : Nat) :
    List (K × V) :=
  (List.range' p (bound - p)).filterMap (flat_entry d)

/-! ### List and arithmetic helper lemmas -/

theorem getD_set_eq {α : Type} (l : List α) (i : Nat) (a d : α)
    (h : i < l.length) : (l.set i a).getD i d = a := by
  simp [List.getD_eq_getElem?_getD, List.getElem?_set_self, h]

theorem getD_set_ne {α : Type} (l : List α) (i j : Nat) (a d : α)
    (h : i ≠ j) : (l.set i a).getD j d = l.getD j d := by
  simp [List.getD_eq_getElem?_getD, List.getElem?_set_ne h]

theorem getD_replicate {α : Type} (n i : Nat) (a d : α) (h : i < n) :
    (List.replicate n a).getD i d = a := by
  simp [List.getD_eq_getElem?_getD, List.getElem?_replicate, h]

theorem getD_of_ge {α : Type} (l : List α) (i : Nat) (d : α)
    (h : l.length ≤ i) : l.getD i d = d := by
  simp [List.getD_eq_getElem?_getD, List.getElem?_eq_none, h]

/-- Reduction of `x % n` when `x < 2 * n`. -/
theorem mod_span (x n : Nat) (hn : 0 < n) (h : x < 2 * n) :
    x % n = if x < n then x else x - n := by
  split
  · exact Nat.mod_eq_of_lt (by assumption)
  · rw [Nat.mod_eq_sub_mod (by omega)]
    exact Nat.mod_eq_of_lt (by omega)

/-- Walking `(g + gc - sg) % gc` groups forward from `sg` reaches `g`. -/
theorem probe_recover (sg g gc : Nat) (hs : sg < gc) (hg : g < gc) :
    (sg + (g + gc - sg) % gc) % gc = g := by
  have h1 : (g + gc - sg) % gc = if g + gc - sg < gc then g + gc - sg
      else g + gc - sg - gc := mod_span _ _ (by omega) (by omega)
  have h2 : (sg + (g + gc - sg) % gc) % gc =
      if sg + (g + gc - sg) % gc < gc then sg + (g + gc - sg) % gc
      else sg + (g + gc - sg) % gc - gc :=
    mod_span _ _ (by omega) (by split at h1 <;> omega)
  split at h1 <;> split at h2 <;> omega

/-- A nonzero probe step of fewer than `gc` groups does not return to the
start group. -/
theorem probe_ne_start (sg u gc : Nat) (hs : sg < gc) (h0 : 0 < u)
    (hu : u < gc) : (sg + u) % gc ≠ sg := by
  have h := mod_span (sg + u) gc (by omega) (by omega)
  split at h <;> omega

/-- Probe positions are injective over one lap. -/
theorem probe_inj (sg t t' gc : Nat) (hs : sg < gc) (ht : t < gc)
    (ht' : t' < gc) (h : (sg + t) % gc = (sg + t') % gc) : t = t' := by
  have h1 := mod_span (sg + t) gc (by omega) (by omega)
  have h2 := mod_span (sg + t') gc (by omega) (by omega)
  split at h1 <;> split at h2 <;> omega

/-- Advancing one group from probe position `t` is probe position `t + 1`. -/
theorem probe_step (sg t gc : Nat) :
    ((sg + t) % gc + 1) % gc = (sg + (t + 1)) % gc := by
  rw [Nat.mod_add_mod, Nat.add_assoc]

theorem probe_lt (sg t gc : Nat) (h : 0 < gc) : (sg + t) % gc < gc :=
  Nat.mod_lt _ h

theorem np2_go_ge (fuel n p : Nat) (h : n ≤ 2 ^ fuel * p) :
    n ≤ np2_go fuel n p := by
  induction fuel generalizing p with
  | zero => simpa [np2_go] using h
  | succ fuel ih =>
    rw [np2_go]
    split
    · assumption
    · refine ih (2 * p) ?_
      have he : 2 ^ fuel * (2 * p) = 2 ^ fuel * 2 * p := by ring
      rw [pow_succ] at h; omega

/-- The computed new capacity covers the request. -/
theorem np2_ge (n : Nat) : n ≤ np2 n :=
  np2_go_ge n n 1 (by have := Nat.lt_two_pow n; omega)

theorem nm16_ge (n : Nat) : n ≤ nm16 n := by
  unfold nm16; split <;> omega

theorem nm16_mod (n : Nat) : nm16 n % 16 = 0 := by
  unfold nm16; split <;> omega

/-- `h2` produces an occupied (7-bit) control byte. -/
theorem h2_lt (h : Nat) : h2 h < 128 :=
  Nat.mod_lt _ (by omega)

/-- Occupied tags pass the high-bit occupancy test. -/
theorem used_ctrl_of_lt (b : Nat) (hb : b < 128) : used_ctrl b = true := by
  have : b &&& 128 = 0 := by
    have h := Nat.and_two_pow b 7
    have ht : b.testBit 7 = false := Nat.testBit_lt_two_pow (by omega)
    simpa [ht] using h
  simp [used_ctrl, this]

/-- The `EMPTY` and `DELETED` bytes fail the occupancy test. -/
theorem used_ctrl_empty : used_ctrl 128 = false := by decide

theorem used_ctrl_deleted : used_ctrl 254 = false := by decide

/-- Occupancy is exactly the complement of the tombstone-reusing unused
test. -/
theorem used_ctrl_eq_not_unused (b : Nat) :
    used_ctrl b = !(is_unused true b) := by
  simp [used_ctrl, is_unused, bne]

theorem countP_ext {α : Type} (l : List α) (p q : α → Bool)
    (h : ∀ a ∈ l, p a = q a) : l.countP p = l.countP q := by
  induction l with
  | nil => rfl
  | cons x xs ih =>
    rw [List.countP_cons, List.countP_cons, h x (by simp),
      ih (fun a ha => h a (by simp [ha]))]

theorem countP_all_true {α : Type} (l : List α) (p : α → Bool)
    (h : ∀ a ∈ l, p a = true) : l.countP p = l.length := by
  induction l with
  | nil => rfl
  | cons x xs ih =>
    rw [List.countP_cons, h x (by simp), ih (fun a ha => h a (by simp [ha]))]
    simp [Nat.add_comm]

/-- Counting after flipping one position of a duplicate-free index list from
false to true. -/
theorem countP_flip {α : Type} [DecidableEq α] (l : List α) (p q : α → Bool)
    (i : α) (hnd : l.Nodup) (hi : i ∈ l) (hpi : p i = false)
    (hqi : q i = true) (hother : ∀ a ∈ l, a ≠ i → p a = q a) :
    l.countP q = l.countP p + 1 := by
  induction l with
  | nil => cases hi
  | cons x xs ih =>
    rw [List.countP_cons, List.countP_cons]
    rcases List.mem_cons.mp hi with rfl | hmem
    · have hnotin : i ∉ xs := (List.nodup_cons.mp hnd).1
      have heq : xs.countP q = xs.countP p := by
        refine countP_ext _ _ _ (fun a ha => ?_)
        exact (hother a (by simp [ha]) (fun hax => hnotin (hax ▸ ha))).symm
      simp [hpi, hqi, heq]
    · have hx : x ≠ i := fun hxi => (List.nodup_cons.mp hnd).1 (hxi ▸ hmem)
      rw [hother x (by simp) hx]
      have := ih (List.nodup_cons.mp hnd).2 hmem
        (fun a ha ha' => hother a (by simp [ha]) ha')
      omega

/-- Length of a `filterMap` as a count of productive inputs. -/
theorem length_filterMap_countP {α β : Type} (l : List α) (f : α → Option β) :
    (l.filterMap f).length = l.countP (fun a => (f a).isSome) := by
  induction l with
  | nil => rfl
  | cons x xs ih =>
    rw [List.filterMap_cons, List.countP_cons]
    cases hfx : f x <;> simp [hfx, ih, Nat.add_comm]

/-- Summing a map that differs from another at a single duplicate-free
position. -/
theorem sum_map_update {α : Type} [DecidableEq α] (l : List α)
    (f f' : α → Nat) (i : α) (hnd : l.Nodup) (hi : i ∈ l)
    (hother : ∀ a ∈ l, a ≠ i → f a = f' a) :
    (l.map f').sum + f i = (l.map f).sum + f' i := by
  induction l with
  | nil => cases hi
  | cons x xs ih =>
    simp only [List.map_cons, List.sum_cons]
    rcases List.mem_cons.mp hi with rfl | hmem
    · have hnotin : i ∉ xs := (List.nodup_cons.mp hnd).1
      have : xs.map f' = xs.map f := by
        refine List.map_congr_left (fun a ha => ?_)
        exact (hother a (by simp [ha]) (fun hax => hnotin (hax ▸ ha))).symm
      rw [this]; omega
    · have hx : x ≠ i := fun hxi => (List.nodup_cons.mp hnd).1 (hxi ▸ hmem)
      rw [hother x (by simp) hx]
      have := ih (List.nodup_cons.mp hnd).2 hmem
        (fun a ha ha' => hother a (by simp [ha]) ha')
      omega

/-! ### Probe characterisation -/

theorem group_clean_of_finds {K V : Type} [DecidableEq K]
    {d : TableData K V} {k : K} {h2v : Nat} {deleted : Bool} {g : Nat}
    (h1 : group_find_key d g h2v k = none)
    (h2 : group_match_unused d g deleted = none) :
    group_clean d k h2v deleted g := by
  constructor
  · intro i hi
    have := List.find?_eq_none.mp h1 i (List.mem_range.mpr hi)
    simpa using this
  · intro i hi
    have := List.find?_eq_none.mp h2 i (List.mem_range.mpr hi)
    simpa using this

/-- A failed probe leaves every group from its current position to the end
of the lap clean. -/
theorem find_slot_aux_none {K V : Type} [DecidableEq K] (d : TableData K V)
    (k : K) (h2v : Nat) (deleted : Bool) (gc sg : Nat) (hs : sg < gc) :
    ∀ fuel u, u + fuel = gc →
      find_slot_aux d k h2v deleted gc sg fuel ((sg + u) % gc) = none →
      ∀ t, u ≤ t → t < gc → group_clean d k h2v deleted ((sg + t) % gc) := by
  intro fuel
  induction fuel with
  | zero => intro u hu _ t ht ht'; omega
  | succ fuel ih =>
    intro u hu hnone t ht ht'
    simp only [find_slot_aux] at hnone
    cases hfk : group_find_key d ((sg + u) % gc) h2v k with
    | some i => rw [hfk] at hnone; simp at hnone
    | none =>
    rw [hfk] at hnone
    cases hfu : group_match_unused d ((sg + u) % gc) deleted with
    | some i => rw [hfu] at hnone; simp at hnone
    | none =>
    rw [hfu] at hnone
    simp only [probe_step] at hnone
    rcases Nat.lt_or_ge t (u + 1) with hlt | hge
    · have : t = u := by omega
      subst this
      exact group_clean_of_finds hfk hfu
    · by_cases hwrap : (sg + (u + 1)) % gc = sg
      · have : u + 1 = gc ∨ u + 1 = 0 := by
          rcases Nat.lt_or_ge (u + 1) gc with h' | h'
          · rcases Nat.eq_zero_or_pos (u + 1) with h0 | h0
            · exact Or.inr h0
            · exact absurd hwrap (probe_ne_start sg (u + 1) gc hs h0 h')
          · left; omega
        omega
      · rw [if_neg hwrap] at hnone
        exact ih (u + 1) (by omega) hnone t hge ht'

/-- Full characterisation of a successful probe: the result lies at probe
position `t`, every earlier position of the lap is clean, and the result
slot satisfies the branch condition that produced it. -/
theorem find_slot_aux_path {K V : Type} [DecidableEq K] (d : TableData K V)
    (k : K) (h2v : Nat) (deleted : Bool) (gc sg : Nat) (hs : sg < gc) :
    ∀ fuel u idx occ, u < gc →
      find_slot_aux d k h2v deleted gc sg fuel ((sg + u) % gc) =
        some (idx, occ) →
      ∃ t, u ≤ t ∧ t < gc ∧ idx % 16 < 16 ∧
        idx = (sg + t) % gc * 16 + idx % 16 ∧
        (∀ t', u ≤ t' → t' < t →
          group_clean d k h2v deleted ((sg + t') % gc)) ∧
        ((occ = true ∧
            slot_matches d ((sg + t) % gc) (idx % 16) h2v k = true) ∨
         (occ = false ∧
            is_unused deleted (ctrl_byte d ((sg + t) % gc) (idx % 16)) = true ∧
            ∀ j < 16, slot_matches d ((sg + t) % gc) j h2v k = false)) := by
  intro fuel
  induction fuel with
  | zero => intro u idx occ hu h; simp [find_slot_aux] at h
  | succ fuel ih =>
    intro u idx occ hu h
    simp only [find_slot_aux] at h
    cases hfk : group_find_key d ((sg + u) % gc) h2v k with
    | some i =>
      rw [hfk] at h
      simp only [Option.some.injEq, Prod.mk.injEq] at h
      have hi16 : i < 16 :=
        List.mem_range.mp (List.mem_of_find?_eq_some hfk)
      have hmod : idx % 16 = i := by omega
      refine ⟨u, le_refl u, hu, by omega, by omega, by omega, Or.inl ⟨h.2.symm, ?_⟩⟩
      have hp := List.find?_some (show (List.range 16).find?
        (fun j => slot_matches d ((sg + u) % gc) j h2v k) = some i from hfk)
      rw [hmod]
      simpa using hp
    | none =>
    rw [hfk] at h
    cases hfu : group_match_unused d ((sg + u) % gc) deleted with
    | some i =>
      rw [hfu] at h
      simp only [Option.some.injEq, Prod.mk.injEq] at h
      have hi16 : i < 16 :=
        List.mem_range.mp (List.mem_of_find?_eq_some hfu)
      have hmod : idx % 16 = i := by omega
      refine ⟨u, le_refl u, hu, by omega, by omega, by omega,
        Or.inr ⟨h.2.symm, ?_, ?_⟩⟩
      · have hp := List.find?_some (show (List.range 16).find?
          (fun j => is_unused deleted (ctrl_byte d ((sg + u) % gc) j)) =
            some i from hfu)
        rw [hmod]
        simpa using hp
      · intro j hj
        have := List.find?_eq_none.mp hfk j (List.mem_range.mpr hj)
        simpa using this
    | none =>
    rw [hfu] at h
    simp only [probe_step] at h
    by_cases hwrap : (sg + (u + 1)) % gc = sg
    · rw [if_pos hwrap] at h; simp at h
    · rw [if_neg hwrap] at h
      have hu1 : u + 1 < gc := by
        rcases Nat.lt_or_ge (u + 1) gc with h' | h'
        · exact h'
        · have : u + 1 = gc := by omega
          rw [this] at hwrap
          exact absurd (by simp [Nat.add_mod_right, Nat.mod_eq_of_lt hs]) hwrap
      obtain ⟨t, ht1, ht2, ht3, ht4, ht5, ht6⟩ := ih (u + 1) idx occ hu1 h
      refine ⟨t, by omega, ht2, ht3, ht4, ?_, ht6⟩
      intro t' h1' h2'
      rcases Nat.lt_or_ge t' (u + 1) with hlt | hge
      · have : t' = u := by omega
        subst this
        exact group_clean_of_finds hfk hfu
      · exact ht5 t' hge h2'

/-- The probe result is independent of any fuel of at least one lap. -/
theorem find_slot_aux_fuel {K V : Type} [DecidableEq K] (d : TableData K V)
    (k : K) (h2v : Nat) (deleted : Bool) (gc sg : Nat) (hs : sg < gc) :
    ∀ r, 1 ≤ r → ∀ u f₁ f₂, u + r = gc → r ≤ f₁ → r ≤ f₂ →
      find_slot_aux d k h2v deleted gc sg f₁ ((sg + u) % gc) =
      find_slot_aux d k h2v deleted gc sg f₂ ((sg + u) % gc) := by
  intro r
  induction r with
  | zero => omega
  | succ r ih =>
    intro _ u f₁ f₂ hu h1 h2
    obtain ⟨a, rfl⟩ : ∃ a, f₁ = a + 1 := ⟨f₁ - 1, by omega⟩
    obtain ⟨b, rfl⟩ : ∃ b, f₂ = b + 1 := ⟨f₂ - 1, by omega⟩
    simp only [find_slot_aux]
    cases hfk : group_find_key d ((sg + u) % gc) h2v k with
    | some i => simp
    | none =>
    cases hfu : group_match_unused d ((sg + u) % gc) deleted with
    | some i => simp
    | none =>
    simp only [probe_step]
    by_cases hwrap : (sg + (u + 1)) % gc = sg
    · simp only [if_pos hwrap]
    · simp only [if_neg hwrap]
      rcases Nat.eq_zero_or_pos r with rfl | hr
      · exfalso
        apply hwrap
        have : u + 1 = gc := by omega
        rw [this]
        simp [Nat.add_mod_right, Nat.mod_eq_of_lt hs]
      · exact ih hr (u + 1) a b (by omega) (by omega) (by omega)

/-- A probe on a table with no groups reports absence at once. -/
theorem find_slot_no_groups {K V : Type} [DecidableEq K] (d : TableData K V)
    (k : K) (hsh : Nat) (del : Bool) (h : capacity_impl d / 16 = 0) :
    find_slot d k hsh del = none := by
  simp [find_slot, find_slot_fuel, h]

/-- A failed probe leaves every group of the table clean. -/
theorem find_slot_none_clean {K V : Type} [DecidableEq K]
    {d : TableData K V} {k : K} {hsh : Nat} {del : Bool}
    (hgc : 0 < capacity_impl d / 16)
    (h : find_slot d k hsh del = none) :
    ∀ g, g < capacity_impl d / 16 → group_clean d k (h2 hsh) del g := by
  intro g hg
  have hs : h1 hsh % (capacity_impl d / 16) < capacity_impl d / 16 :=
    Nat.mod_lt _ hgc
  simp only [find_slot, find_slot_fuel] at h
  rw [if_neg (by omega)] at h
  have h0 : (h1 hsh % (capacity_impl d / 16) + 0) % (capacity_impl d / 16) =
      h1 hsh % (capacity_impl d / 16) := by
    simp [Nat.mod_eq_of_lt hs]
  have hres := find_slot_aux_none d k (h2 hsh) del (capacity_impl d / 16)
    (h1 hsh % (capacity_impl d / 16)) hs (capacity_impl d / 16) 0 (by omega)
    (by rw [h0]; exact h)
    ((g + capacity_impl d / 16 - h1 hsh % (capacity_impl d / 16)) %
      (capacity_impl d / 16))
    (by omega) (Nat.mod_lt _ hgc)
  rwa [probe_recover _ _ _ hs hg] at hres

/-- Path characterisation of a successful top-level probe. -/
theorem find_slot_path {K V : Type} [DecidableEq K] {d : TableData K V}
    {k : K} {hsh : Nat} {del : Bool} {idx : Nat} {occ : Bool}
    (h : find_slot d k hsh del = some (idx, occ)) :
    ∃ t, t < capacity_impl d / 16 ∧ idx % 16 < 16 ∧
      idx = (h1 hsh % (capacity_impl d / 16) + t) % (capacity_impl d / 16) *
        16 + idx % 16 ∧
      (∀ t', t' < t → group_clean d k (h2 hsh) del
        ((h1 hsh % (capacity_impl d / 16) + t') % (capacity_impl d / 16))) ∧
      ((occ = true ∧ slot_matches d
          ((h1 hsh % (capacity_impl d / 16) + t) % (capacity_impl d / 16))
          (idx % 16) (h2 hsh) k = true) ∨
       (occ = false ∧ is_unused del (ctrl_byte d
          ((h1 hsh % (capacity_impl d / 16) + t) % (capacity_impl d / 16))
          (idx % 16)) = true ∧
        ∀ j < 16, slot_matches d
          ((h1 hsh % (capacity_impl d / 16) + t) % (capacity_impl d / 16))
          j (h2 hsh) k = false)) := by
  have hgc : 0 < capacity_impl d / 16 := by
    by_contra hc
    rw [find_slot_no_groups d k hsh del (by omega)] at h
    cases h
  have hs : h1 hsh % (capacity_impl d / 16) < capacity_impl d / 16 :=
    Nat.mod_lt _ hgc
  simp only [find_slot, find_slot_fuel] at h
  rw [if_neg (by omega)] at h
  have h0 : (h1 hsh % (capacity_impl d / 16) + 0) % (capacity_impl d / 16) =
      h1 hsh % (capacity_impl d / 16) := by
    simp [Nat.mod_eq_of_lt hs]
  obtain ⟨t, _, ht2, ht3, ht4, ht5, ht6⟩ := find_slot_aux_path d k (h2 hsh)
    del (capacity_impl d / 16) (h1 hsh % (capacity_impl d / 16)) hs
    (capacity_impl d / 16) 0 idx occ hgc (by rw [h0]; exact h)
  exact ⟨t, ht2, ht3, ht4, fun t' ht' => ht5 t' (by omega) ht', ht6⟩

/-- A successful probe returns an in-range slot index. -/
theorem find_slot_lt {K V : Type} [DecidableEq K] {d : TableData K V}
    {k : K} {hsh : Nat} {del : Bool} {idx : Nat} {occ : Bool}
    (h : find_slot d k hsh del = some (idx, occ)) :
    idx < capacity_impl d / 16 * 16 := by
  obtain ⟨t, ht1, ht2, ht3, ht4, _⟩ := find_slot_path h
  have hpos := probe_lt (h1 hsh % (capacity_impl d / 16)) t
    (capacity_impl d / 16) (by omega)
  omega

/-! ### Accessors for the well-formedness invariant -/

theorem getD_mem {α : Type} (l : List α) (i : Nat) (d : α)
    (h : i < l.length) : l.getD i d ∈ l := by
  rw [List.getD_eq_getElem?_getD, List.getElem?_eq_getElem h]
  exact List.getElem_mem h

theorem wf_lengths {K V : Type} [DecidableEq K] {hf : K → Nat}
    {m : HashMap K V} (h : wf hf m = true) :
    m.data.slots.length = m.data.ctrl.length := by
  simp only [wf, Bool.and_eq_true] at h
  simpa using h.1.1.1.1.1

theorem wf_cap16 {K V : Type} [DecidableEq K] {hf : K → Nat}
    {m : HashMap K V} (h : wf hf m = true) :
    capacity_impl m.data % 16 = 0 := by
  simp only [wf, Bool.and_eq_true] at h
  simpa using h.1.1.1.1.2

theorem wf_valid {K V : Type} [DecidableEq K] {hf : K → Nat}
    {m : HashMap K V} (h : wf hf m = true) :
    ∀ idx, idx < capacity_impl m.data →
      valid_byte (ctrl_at m.data idx) = true := by
  simp only [wf, Bool.and_eq_true] at h
  intro idx hidx
  exact List.all_eq_true.mp h.1.1.1.2 _ (getD_mem _ _ _ hidx)

theorem wf_len {K V : Type} [DecidableEq K] {hf : K → Nat}
    {m : HashMap K V} (h : wf hf m = true) :
    m.len = occ_count m.data := by
  simp only [wf, Bool.and_eq_true] at h
  simpa using h.2

theorem wf_occ {K V : Type} [DecidableEq K] {hf : K → Nat}
    {m : HashMap K V} (h : wf hf m = true) :
    ∀ idx, idx < capacity_impl m.data → occupied_at m.data idx = true →
      ∃ k v, slot_at m.data idx = some (k, v) ∧
        ctrl_at m.data idx = h2 (hf k) ∧
        ∀ t, t < (idx / 16 + capacity_impl m.data / 16 -
            h1 (hf k) % (capacity_impl m.data / 16)) %
            (capacity_impl m.data / 16) →
          ∀ j, j < 16 →
            ctrl_byte m.data ((h1 (hf k) % (capacity_impl m.data / 16) + t) %
              (capacity_impl m.data / 16)) j ≠ 128 := by
  simp only [wf, Bool.and_eq_true] at h
  intro idx hidx hocc
  have hall := List.all_eq_true.mp h.1.1.2 idx (List.mem_range.mpr hidx)
  rw [if_pos hocc] at hall
  cases hslot : slot_at m.data idx with
  | none => rw [hslot] at hall; cases hall
  | some kv =>
    obtain ⟨k, v⟩ := kv
    rw [hslot] at hall
    simp only [Bool.and_eq_true, beq_iff_eq] at hall
    refine ⟨k, v, rfl, hall.1, ?_⟩
    intro t ht j hj
    have := List.all_eq_true.mp
      (List.all_eq_true.mp hall.2 t (List.mem_range.mpr ht)) j
      (List.mem_range.mpr hj)
    simpa using this

theorem wf_unocc {K V : Type} [DecidableEq K] {hf : K → Nat}
    {m : HashMap K V} (h : wf hf m = true) :
    ∀ idx, idx < capacity_impl m.data → occupied_at m.data idx = false →
      slot_at m.data idx = none := by
  simp only [wf, Bool.and_eq_true] at h
  intro idx hidx hocc
  have hall := List.all_eq_true.mp h.1.1.2 idx (List.mem_range.mpr hidx)
  rw [if_neg (by simp [hocc])] at hall
  exact Option.isNone_iff_eq_none.mp hall

theorem wf_distinct {K V : Type} [DecidableEq K] {hf : K → Nat}
    {m : HashMap K V} (h : wf hf m = true) :
    ∀ i j ki vi kj vj, i < capacity_impl m.data → j < capacity_impl m.data →
      occupied_at m.data i = true → occupied_at m.data j = true →
      slot_at m.data i = some (ki, vi) → slot_at m.data j = some (kj, vj) →
      ki = kj → i = j := by
  simp only [wf, Bool.and_eq_true] at h
  intro i j ki vi kj vj hi hj hoi hoj hsi hsj hk
  have hall := List.all_eq_true.mp
    (List.all_eq_true.mp h.1.2 i (List.mem_range.mpr hi)) j
    (List.mem_range.mpr hj)
  rw [hsi, hsj] at hall
  simp only [hoi, hoj, hk, Bool.and_self, Bool.not_true, Bool.false_or,
    Bool.or_eq_true, beq_iff_eq] at hall
  rcases hall with h' | h'
  · simp at h'
  · exact h'

/-! ### Lookup correctness -/

/-- The slot of a stored key matches the probe's candidate test. -/
theorem stored_slot_matches {K V : Type} [DecidableEq K] {hf : K → Nat}
    {m : HashMap K V} {k : K} {v : V} {idx : Nat}
    (hidx : idx < capacity_impl m.data) (hocc : occupied_at m.data idx = true)
    (hslot : slot_at m.data idx = some (k, v))
    (hctrl : ctrl_at m.data idx = h2 (hf k)) :
    slot_matches m.data (idx / 16) (idx % 16) (h2 (hf k)) k = true := by
  unfold slot_matches
  rw [show idx / 16 * 16 + idx % 16 = idx by omega]
  rw [show ctrl_byte m.data (idx / 16) (idx % 16) = ctrl_at m.data idx by
    unfold ctrl_byte; rw [show idx / 16 * 16 + idx % 16 = idx by omega]]
  rw [hctrl, hslot]
  simp

/-- A slot satisfying the candidate test stores `k` (with some value) and is
occupied. -/
theorem slot_matches_stored {K V : Type} [DecidableEq K]
    {d : TableData K V} {g i : Nat} {h2v : Nat} {k : K}
    (h : slot_matches d g i h2v k = true) (hv : h2v < 128) :
    occupied_at d (g * 16 + i) = true ∧
      ∃ v, slot_at d (g * 16 + i) = some (k, v) := by
  unfold slot_matches at h
  cases hslot : slot_at d (g * 16 + i) with
  | none => rw [hslot] at h; simp at h
  | some kv =>
    obtain ⟨k', v⟩ := kv
    rw [hslot] at h
    simp only [Bool.and_eq_true, beq_iff_eq, decide_eq_true_eq] at h
    have hctrl : ctrl_at d (g * 16 + i) = h2v := by
      have := h.1; unfold ctrl_byte at this; exact this
    constructor
    · unfold occupied_at
      rw [hctrl]
      exact used_ctrl_of_lt _ hv
    · exact ⟨v, by rw [h.2]⟩

/-- A stored pair is found by `get` (no tombstone shadows a probe without
tombstone reuse, thanks to the well-formedness probe invariant). -/
theorem get_of_stored {K V : Type} [DecidableEq K] {hf : K → Nat}
    {m : HashMap K V} {k : K} {v : V} (hwf : wf hf m = true)
    (hst : stored_pair m.data k v) : get hf m k = some v := by
  obtain ⟨idx, hidx, hocc, hslot⟩ := hst
  have hcap16 := wf_cap16 hwf
  have hgc : 0 < capacity_impl m.data / 16 := by omega
  have hcapeq : capacity_impl m.data / 16 * 16 = capacity_impl m.data := by
    omega
  have hs : h1 (hf k) % (capacity_impl m.data / 16) <
      capacity_impl m.data / 16 := Nat.mod_lt _ hgc
  obtain ⟨k0, v0, hslot', hctrl, hfindable⟩ := wf_occ hwf idx hidx hocc
  rw [hslot] at hslot'
  injection hslot' with hpair
  injection hpair with hk hv
  subst hk
  subst hv
  have hg : idx / 16 < capacity_impl m.data / 16 := by omega
  have hsm := stored_slot_matches hidx hocc hslot hctrl
  -- uniqueness of the matching slot
  have huniq : ∀ idx', idx' < capacity_impl m.data →
      ∀ g i, idx' = g * 16 + i → i < 16 →
      slot_matches m.data g i (h2 (hf k)) k = true → idx' = idx := by
    intro idx' hidx' g i hgi hi16 hm
    obtain ⟨hocc', v', hslot''⟩ := slot_matches_stored hm (h2_lt (hf k))
    exact wf_distinct hwf idx' idx k v' k v hidx' hidx (hgi ▸ hocc') hocc
      (hgi ▸ hslot'') hslot rfl
  unfold get
  cases hres : find_slot m.data k (hf k) false with
  | none =>
    exfalso
    have hclean := find_slot_none_clean hgc hres (idx / 16) hg
    exact absurd hsm (by simp [hclean.1 (idx % 16) (by omega)])
  | some p =>
    obtain ⟨idx', occ⟩ := p
    obtain ⟨t, ht1, ht2, ht3, ht4, ht5⟩ := find_slot_path hres
    have hidx'lt : idx' < capacity_impl m.data := by
      have := find_slot_lt hres; omega
    rcases ht5 with ⟨rfl, hm'⟩ | ⟨rfl, hun, hnom⟩
    · -- occupied hit: it can only be the stored slot
      have heq : idx' = idx := huniq idx' hidx'lt _ _ ht3 ht2 hm'
      subst heq
      show Option.map (fun x => x.2) (slot_at m.data idx') = some v
      rw [hslot]
      rfl
    · -- stop at an empty slot: impossible before, at, or past the key
      exfalso
      set gc := capacity_impl m.data / 16 with hgcdef
      set sg := h1 (hf k) % gc with hsgdef
      set dist := (idx / 16 + gc - sg) % gc with hdistdef
      have hdlt : dist < gc := Nat.mod_lt _ (by omega)
      have hrecov : (sg + dist) % gc = idx / 16 :=
        probe_recover sg (idx / 16) gc hs hg
      rcases Nat.lt_trichotomy t dist with hlt | heq | hgt
      · -- an `EMPTY` byte strictly before the key's group
        have := hfindable t hlt (idx' % 16) ht2
        have hb : ctrl_byte m.data ((sg + t) % gc) (idx' % 16) = 128 := by
          simpa [is_unused] using hun
        exact this hb
      · -- the probe stopped in the key's own group without the key match
        rw [heq, hrecov] at hnom
        exact absurd hsm (by simp [hnom (idx % 16) (by omega)])
      · -- the key's group would have been clean
        have hclean := ht4 dist hgt
        rw [hrecov] at hclean
        exact absurd hsm (by simp [hclean.1 (idx % 16) (by omega)])

/-- Conversely, a hit of `get` is a stored pair. -/
theorem stored_of_get {K V : Type} [DecidableEq K] {hf : K → Nat}
    {m : HashMap K V} {k : K} {v : V}
    (h : get hf m k = some v) : stored_pair m.data k v := by
  unfold get at h
  cases hres : find_slot m.data k (hf k) false with
  | none => rw [hres] at h; cases h
  | some p =>
    obtain ⟨idx, occ⟩ := p
    cases occ with
    | false => rw [hres] at h; cases h
    | true =>
      rw [hres] at h
      have h' : Option.map (fun x => x.2) (slot_at m.data idx) = some v := h
      obtain ⟨t, ht1, ht2, ht3, ht4, ht5⟩ := find_slot_path hres
      rcases ht5 with ⟨_, hm⟩ | ⟨hocc, _⟩
      · obtain ⟨hocc', v', hslot'⟩ := slot_matches_stored hm (h2_lt (hf k))
        rw [← ht3] at hocc' hslot'
        rw [hslot'] at h'
        simp at h'
        refine ⟨idx, ?_, hocc', by rw [hslot', h']⟩
        have := find_slot_lt hres
        calc idx < capacity_impl m.data / 16 * 16 := this
        _ ≤ capacity_impl m.data := by omega
      · cases hocc

/-! ### Consequences of a fully failed probe, and occupancy counting -/

theorem sum_map_const {α : Type} (l : List α) (c : Nat) :
    (l.map (fun _ => c)).sum = l.length * c := by
  induction l with
  | nil => simp
  | cons x xs ih => simp [ih, Nat.succ_mul, Nat.add_comm]

/-- A tombstone-reusing probe fails only on a table whose control bytes are
all occupied. -/
theorem find_slot_none_all_used {K V : Type} [DecidableEq K]
    {d : TableData K V} {k : K} {hsh : Nat}
    (hgc : 0 < capacity_impl d / 16)
    (h : find_slot d k hsh true = none) :
    ∀ g, g < capacity_impl d / 16 → ∀ i, i < 16 →
      used_ctrl (ctrl_byte d g i) = true := by
  intro g hg i hi
  have hclean := find_slot_none_clean hgc h g hg
  rw [used_ctrl_eq_not_unused]
  rw [hclean.2 i hi]
  rfl

theorem occ_count_all_used {K V : Type} {d : TableData K V}
    (h : ∀ g, g < capacity_impl d / 16 → ∀ i, i < 16 →
      used_ctrl (ctrl_byte d g i) = true) :
    occ_count d = capacity_impl d / 16 * 16 := by
  unfold occ_count
  have hmap : (List.range (capacity_impl d / 16)).map (fun g =>
      ((List.range 16).filter (fun i => used_ctrl (ctrl_byte d g i))).length)
      = (List.range (capacity_impl d / 16)).map (fun _ => 16) := by
    refine List.map_congr_left (fun g hg => ?_)
    have : (List.range 16).filter (fun i => used_ctrl (ctrl_byte d g i)) =
        List.range 16 := by
      refine List.filter_eq_self.mpr (fun i hi => ?_)
      exact h g (List.mem_range.mp hg) i (List.mem_range.mp hi)
    rw [this]
    simp
  rw [hmap, sum_map_const]
  simp

/-- A failed tombstone-reusing probe on a well-formed map means the key is
not stored anywhere. -/
theorem find_slot_none_not_stored {K V : Type} [DecidableEq K]
    {hf : K → Nat} {m : HashMap K V} {k : K}
    (hwf : wf hf m = true)
    (h : find_slot m.data k (hf k) true = none) :
    ∀ v, ¬ stored_pair m.data k v := by
  intro v hst
  obtain ⟨idx, hidx, hocc, hslot⟩ := hst
  have hcap16 := wf_cap16 hwf
  have hgc : 0 < capacity_impl m.data / 16 := by omega
  obtain ⟨k0, v0, hslot', hctrl, _⟩ := wf_occ hwf idx hidx hocc
  rw [hslot] at hslot'
  injection hslot' with hpair
  injection hpair with hk hv
  subst hk
  have hg : idx / 16 < capacity_impl m.data / 16 := by omega
  have hsm := stored_slot_matches hidx hocc hslot hctrl
  have hclean := find_slot_none_clean hgc h (idx / 16) hg
  exact absurd hsm (by simp [hclean.1 (idx % 16) (by omega)])

/-! ### Claim theorems: the easy claims -/

/-- C9. Every probe terminates: with capacity 0 (no groups) it reports
not-found immediately, and the result with any fuel of at least one lap of
the `group_count` groups equals the result with exactly `group_count`, so
the probe loop of `find_slot` (the slot search underlying `get`, `get_mut`,
`contains_key`, `insert`, `remove` and `entry`) visits at most `group_count`
groups on every table, including a fully occupied one. -/
theorem c9_probe_terminates {K V : Type} [DecidableEq K] (d : TableData K V)
    (k : K) (hsh : Nat) (del : Bool) :
    (capacity_impl d = 0 → find_slot d k hsh del = none) ∧
    (∀ extra, find_slot_fuel d k hsh del (capacity_impl d / 16 + extra) =
      find_slot d k hsh del) := by
  constructor
  · intro h
    exact find_slot_no_groups d k hsh del (by omega)
  · intro extra
    by_cases hgc : capacity_impl d / 16 = 0
    · simp [find_slot, find_slot_fuel, hgc]
    · have hs : h1 hsh % (capacity_impl d / 16) < capacity_impl d / 16 :=
        Nat.mod_lt _ (by omega)
      simp only [find_slot, find_slot_fuel, if_neg hgc]
      have h0 : (h1 hsh % (capacity_impl d / 16) + 0) %
          (capacity_impl d / 16) = h1 hsh % (capacity_impl d / 16) := by
        simp [Nat.mod_eq_of_lt hs]
      have := find_slot_aux_fuel d k (h2 hsh) del (capacity_impl d / 16)
        (h1 hsh % (capacity_impl d / 16)) hs (capacity_impl d / 16)
        (by omega) 0 (capacity_impl d / 16 + extra) (capacity_impl d / 16)
        (by omega) (by omega) (by omega)
      rwa [h0] at this

/-- Witness for C9 at concrete inputs: the empty map's probe reports
not-found at once, and on a one-group table any extra fuel is irrelevant. -/
theorem c9_probe_terminates_witness :
    find_slot (new Nat Nat).data 3 (hf_id 3) false = none ∧
    find_slot_fuel full_map.data 16 (hf_id 16) true
      (capacity_impl full_map.data / 16 + 7) =
      find_slot full_map.data 16 (hf_id 16) true :=
  ⟨(c9_probe_terminates (new Nat Nat).data 3 (hf_id 3) false).1 (by decide),
   (c9_probe_terminates full_map.data 16 (hf_id 16) true).2 7⟩

/-- C10. The indexing operators return the stored value when the key is
present and panic with the message `no entry found for key` when it is
absent, unlike `get`/`get_mut`, which return `none`. -/
theorem c10_index_panics {K V : Type} [DecidableEq K] (hf : K → Nat)
    (m : HashMap K V) (k : K) :
    (∀ v, get hf m k = some v → index hf m k = Except.ok v) ∧
    (get hf m k = none →
      index hf m k = Except.error "no entry found for key") ∧
    (∀ v, get_mut hf m k = some v → index_mut hf m k = Except.ok v) ∧
    (get_mut hf m k = none →
      index_mut hf m k = Except.error "no entry found for key") := by
  refine ⟨fun v hv => ?_, fun hn => ?_, fun v hv => ?_, fun hn => ?_⟩
  · simp [index, hv]
  · simp [index, hn]
  · simp [index_mut, hv]
  · simp [index_mut, hn]

/-- Witness for C10: a present key is returned, an absent key panics. -/
theorem c10_index_panics_witness :
    index hf_id sample_map 1 = Except.ok 10 ∧
    index_mut hf_id sample_map 2 = Except.error "no entry found for key" :=
  ⟨(c10_index_panics hf_id sample_map 1).1 10 (by decide),
   (c10_index_panics hf_id sample_map 2).2.2.2 (by decide)⟩

/-- C2 (amended). `reserve(additional)` is a no-op — it returns `Ok`,
performs no allocation (the result does not depend on whether allocation
would succeed), and leaves the map completely unchanged — exactly when the
capacity already reaches `next_power_of_two(len() + additional)`.  The
original claim's condition `capacity() ≥ len() + additional` is weaker and
does not suffice, as `c2_reserve_noop_counterexample` shows. -/
theorem c2_reserve_noop {K V : Type} [DecidableEq K] (hf : K → Nat)
    (m : HashMap K V) (additional : Nat)
    (h : np2 (m.len + additional) ≤ capacity_impl m.data) :
    ∀ alloc_ok, reserve hf m additional alloc_ok =
      some (m, Except.ok ()) := by
  intro alloc_ok
  unfold reserve
  rw [if_pos h]

/-- Witness for C2: a capacity-16 map with `len + additional = 16` is left
untouched even when allocation would fail. -/
theorem c2_reserve_noop_witness :
    reserve hf_id (with_capacity Nat Nat 1) 16 false =
      some (with_capacity Nat Nat 1, Except.ok ()) :=
  c2_reserve_noop hf_id (with_capacity Nat Nat 1) 16 (by decide) false

/-- Counterexample to C2 as stated: `with_capacity(33)` yields capacity 48,
and `reserve(33)` on the empty result satisfies the claim's condition
`capacity() ≥ len() + additional` (48 ≥ 33), yet it is not a no-op: with a
successful allocation it rebuilds the buffer at capacity 64, and with a
failing allocation it returns an error instead of `Ok`. -/
theorem c2_reserve_noop_counterexample :
    capacity_impl (with_capacity Nat Nat 33).data = 48 ∧
    (with_capacity Nat Nat 33).len + 33 ≤
      capacity_impl (with_capacity Nat Nat 33).data ∧
    (reserve hf_id (with_capacity Nat Nat 33) 33 true).map
      (fun r => (capacity_impl r.1.data, r.2)) =
      some (64, Except.ok ()) ∧
    reserve hf_id (with_capacity Nat Nat 33) 33 false =
      some (with_capacity Nat Nat 33, Except.error AllocError.alloc) := by
  decide

/-- C3. Error atomicity of growth: whenever `reserve` or `insert` reports an
allocation error, the map is returned exactly as it was before the call
(same buffer, same contents, same length). -/
theorem c3_error_atomicity {K V : Type} [DecidableEq K] (hf : K → Nat) :
    (∀ (m m' : HashMap K V) additional alloc_ok e,
      reserve hf m additional alloc_ok = some (m', Except.error e) →
      m' = m) ∧
    (∀ fuel (m m' : HashMap K V) k v alloc_ok e,
      insert hf fuel m k v alloc_ok = some (m', Except.error e) →
      m' = m) := by
  have hres : ∀ (m m' : HashMap K V) additional alloc_ok e,
      reserve hf m additional alloc_ok = some (m', Except.error e) →
      m' = m := by
    intro m m' additional alloc_ok e h
    simp only [reserve] at h
    split at h
    · injection h with hp
      injection hp with hp1 hp2
      simp at hp2
    · split at h
      · injection h with hp
        injection hp with hp1 hp2
        exact hp1.symm
      · split at h
        · cases h
        · injection h with hp
          injection hp with hp1 hp2
          simp at hp2
  refine ⟨hres, ?_⟩
  intro fuel
  induction fuel with
  | zero => intro m m' k v alloc_ok e h; cases h
  | succ fuel ih =>
    intro m m' k v alloc_ok e h
    simp only [insert] at h
    split at h
    · -- occupied hit
      split at h
      · injection h with hp
        injection hp with hp1 hp2
        simp at hp2
      · cases h
    · -- vacant hit
      injection h with hp
      injection hp with hp1 hp2
      simp at hp2
    · -- growth path
      split at h
      · cases h
      · -- reserve reported the error
        rename_i m1 e' hresv
        injection h with hp
        injection hp with hp1 hp2
        subst hp1
        exact hres m m1 1 alloc_ok e' hresv
      · -- reserve succeeded; the retry result cannot carry an error
        split at h
        · injection h with hp
          injection hp with hp1 hp2
          simp at hp2
        · cases h

set_option maxRecDepth 16384 in
/-- Witness for C3 at a concrete input: a full capacity-16 map with a
failing allocation. `reserve(100)` must grow, fails, and reports the error
with the map unchanged; `insert` of an absent key likewise. -/
theorem c3_error_atomicity_witness :
    reserve hf_id full_map 100 false =
      some (full_map, Except.error AllocError.alloc) ∧
    insert hf_id 1 full_map 16 99 false =
      some (full_map, Except.error AllocError.alloc) ∧
    full_map = full_map ∧ full_map = full_map :=
  ⟨by decide, by decide,
   (c3_error_atomicity hf_id).1 full_map full_map 100 false
     AllocError.alloc (by decide),
   (c3_error_atomicity hf_id).2 1 full_map full_map 16 99 false
     AllocError.alloc (by decide)⟩

/-! ### Table-surgery lemmas: writing one slot -/

theorem land128_of_lt (b : Nat) (hb : b < 128) : b &&& 128 = 0 := by
  have h := Nat.and_two_pow b 7
  have ht : b.testBit 7 = false := Nat.testBit_lt_two_pow (by omega)
  simpa [ht] using h

/-- The probe position of a group determines its probe distance. -/
theorem probe_dist (sg t gc : Nat) (hs : sg < gc) (ht : t < gc) :
    ((sg + t) % gc + gc - sg) % gc = t := by
  have h1 := mod_span (sg + t) gc (by omega) (by omega)
  split at h1
  · rw [h1, show sg + t + gc - sg = gc + t by omega, Nat.add_mod_left]
    exact Nat.mod_eq_of_lt ht
  · rw [h1, show sg + t - gc + gc - sg = t by omega]
    exact Nat.mod_eq_of_lt ht

theorem all_of_forall_getD {α : Type} (l : List α) (p : α → Bool) (dflt : α)
    (h : ∀ i, i < l.length → p (l.getD i dflt) = true) : l.all p = true := by
  rw [List.all_eq_true]
  intro x hx
  obtain ⟨i, hi, rfl⟩ := List.mem_iff_getElem.mp hx
  have := h i hi
  rwa [List.getD_eq_getElem?_getD, List.getElem?_eq_getElem hi] at this

/-- Builder for the well-formedness invariant from its propositional
fields. -/
theorem wf_intro {K V : Type} [DecidableEq K] (hf : K → Nat)
    (dd : TableData K V) (n : Nat)
    (hlen : dd.slots.length = dd.ctrl.length)
    (hcap : capacity_impl dd % 16 = 0)
    (hvalid : ∀ idx, idx < capacity_impl dd →
      valid_byte (ctrl_at dd idx) = true)
    (hocc : ∀ idx, idx < capacity_impl dd →
      occupied_at dd idx = true →
      ∃ k v, slot_at dd idx = some (k, v) ∧
        ctrl_at dd idx = h2 (hf k) ∧
        ∀ t, t < (idx / 16 + capacity_impl dd / 16 -
            h1 (hf k) % (capacity_impl dd / 16)) %
            (capacity_impl dd / 16) →
          ∀ j, j < 16 →
            ctrl_byte dd ((h1 (hf k) % (capacity_impl dd / 16) + t) %
              (capacity_impl dd / 16)) j ≠ 128)
    (hunocc : ∀ idx, idx < capacity_impl dd →
      occupied_at dd idx = false → slot_at dd idx = none)
    (hdist : ∀ i j ki vi kj vj, i < capacity_impl dd →
      j < capacity_impl dd →
      occupied_at dd i = true → occupied_at dd j = true →
      slot_at dd i = some (ki, vi) → slot_at dd j = some (kj, vj) →
      ki = kj → i = j)
    (hcount : n = occ_count dd) :
    wf hf { data := dd, len := n } = true := by
  simp only [wf, Bool.and_eq_true]
  refine ⟨⟨⟨⟨⟨by simp [hlen], by simpa using hcap⟩, ?_⟩, ?_⟩, ?_⟩,
    by simpa using hcount⟩
  · exact all_of_forall_getD _ _ _ (fun i hi => hvalid i hi)
  · rw [List.all_eq_true]
    intro idx hidx
    have hidx' : idx < capacity_impl dd := List.mem_range.mp hidx
    by_cases ho : occupied_at dd idx = true
    · rw [if_pos ho]
      obtain ⟨k, v, hs, hc, hfind⟩ := hocc idx hidx' ho
      rw [hs]
      simp only [Bool.and_eq_true, beq_iff_eq]
      refine ⟨hc, ?_⟩
      rw [List.all_eq_true]
      intro t ht
      rw [List.all_eq_true]
      intro j hj
      have := hfind t (List.mem_range.mp ht) j (List.mem_range.mp hj)
      simpa using this
    · rw [if_neg ho]
      have := hunocc idx hidx' (by simpa using ho)
      simp [this]
  · rw [List.all_eq_true]
    intro i hi
    rw [List.all_eq_true]
    intro j hj
    have hi' : i < capacity_impl dd := List.mem_range.mp hi
    have hj' : j < capacity_impl dd := List.mem_range.mp hj
    cases hsi : slot_at dd i with
    | none => simp
    | some kvi =>
      cases hsj : slot_at dd j with
      | none => simp
      | some kvj =>
        obtain ⟨ki, vi⟩ := kvi
        obtain ⟨kj, vj⟩ := kvj
        show (!(occupied_at dd i && occupied_at dd j) ||
          !(decide (ki = kj)) || (i == j)) = true
        by_cases hoi : occupied_at dd i = true
        · by_cases hoj : occupied_at dd j = true
          · by_cases hk : ki = kj
            · have := hdist i j ki vi kj vj hi' hj' hoi hoj hsi hsj hk
              simp [this]
            · simp [hk]
          · have hoj' : occupied_at dd j = false := by simpa using hoj
            simp [hoj']
        · have hoi' : occupied_at dd i = false := by simpa using hoi
          simp [hoi']

/-- Occupancy count of a table with no occupied byte. -/
theorem occ_count_none {K V : Type} (d : TableData K V)
    (h : ∀ g, g < capacity_impl d / 16 → ∀ i, i < 16 →
      used_ctrl (ctrl_byte d g i) = false) :
    occ_count d = 0 := by
  unfold occ_count
  have hmap : (List.range (capacity_impl d / 16)).map (fun g =>
      ((List.range 16).filter (fun i => used_ctrl (ctrl_byte d g i))).length)
      = (List.range (capacity_impl d / 16)).map (fun _ => 0) := by
    refine List.map_congr_left (fun g hg => ?_)
    have : (List.range 16).filter (fun i => used_ctrl (ctrl_byte d g i)) =
        [] := by
      rw [List.filter_eq_nil_iff]
      intro i hi
      simp [h g (List.mem_range.mp hg) i (List.mem_range.mp hi)]
    simp [this]
  rw [hmap, sum_map_const]
  simp

/-- Setting an unoccupied slot's control byte to an occupied tag increments
the occupancy count. -/
theorem occ_count_set_occupied {K V : Type} (d : TableData K V)
    (idx b : Nat) (sl : List (Option (K × V)))
    (hidx : idx < capacity_impl d) (hcap : capacity_impl d % 16 = 0)
    (hold : occupied_at d idx = false) (hb : b < 128) :
    occ_count { ctrl := d.ctrl.set idx b, slots := sl } =
      occ_count d + 1 := by
  have hcapeq : capacity_impl { ctrl := d.ctrl.set idx b, slots := sl } =
      capacity_impl d := List.length_set d.ctrl idx b
  have hpos : idx / 16 < capacity_impl d / 16 := by omega
  have hbyte_eq : ∀ g i, g * 16 + i ≠ idx →
      ctrl_byte { ctrl := d.ctrl.set idx b, slots := sl } g i =
        ctrl_byte d g i := by
    intro g i hne
    unfold ctrl_byte ctrl_at
    exact getD_set_ne _ _ _ _ _ (fun h => hne h.symm)
  have hbyte_idx : ctrl_byte { ctrl := d.ctrl.set idx b, slots := sl }
      (idx / 16) (idx % 16) = b := by
    unfold ctrl_byte ctrl_at
    rw [show idx / 16 * 16 + idx % 16 = idx by omega]
    exact getD_set_eq _ _ _ _ hidx
  have hother : ∀ g ∈ List.range (capacity_impl d / 16), g ≠ idx / 16 →
      ((List.range 16).filter
        (fun i => used_ctrl (ctrl_byte d g i))).length =
      ((List.range 16).filter (fun i => used_ctrl
        (ctrl_byte { ctrl := d.ctrl.set idx b, slots := sl } g i))).length := by
    intro g _ hne
    congr 1
    refine List.filter_congr (fun i hi => ?_)
    rw [hbyte_eq g i ?_]
    intro hgi
    apply hne
    have hi16 : i < 16 := List.mem_range.mp hi
    omega
  have hflip : ((List.range 16).filter (fun i => used_ctrl
      (ctrl_byte { ctrl := d.ctrl.set idx b, slots := sl } (idx / 16)
        i))).length =
      ((List.range 16).filter (fun i => used_ctrl
        (ctrl_byte d (idx / 16) i))).length + 1 := by
    rw [← List.countP_eq_length_filter, ← List.countP_eq_length_filter]
    refine countP_flip (List.range 16) _ _ (idx % 16) (List.nodup_range _)
      (List.mem_range.mpr (by omega)) ?_ ?_ ?_
    · have : ctrl_byte d (idx / 16) (idx % 16) = ctrl_at d idx := by
        unfold ctrl_byte
        rw [show idx / 16 * 16 + idx % 16 = idx by omega]
      rw [this]
      exact hold
    · rw [hbyte_idx]
      exact used_ctrl_of_lt b hb
    · intro a _ ha
      rw [hbyte_eq (idx / 16) a (by omega)]
  have hupd := sum_map_update (List.range (capacity_impl d / 16))
    (fun g => ((List.range 16).filter
      (fun i => used_ctrl (ctrl_byte d g i))).length)
    (fun g => ((List.range 16).filter (fun i => used_ctrl
      (ctrl_byte { ctrl := d.ctrl.set idx b, slots := sl } g i))).length)
    (idx / 16) (List.nodup_range _) (List.mem_range.mpr hpos) hother
  simp only [] at hupd hflip
  unfold occ_count
  rw [hcapeq]
  omega

theorem valid_byte_of_lt (b : Nat) (hb : b < 128) : valid_byte b = true := by
  simp [valid_byte, hb]

theorem valid_byte_cases (b : Nat) (h : valid_byte b = true) :
    b = 128 ∨ b = 254 ∨ b < 128 := by
  have h' : (b = 128 ∨ b = 254) ∨ b < 128 := by
    simpa [valid_byte, Bool.or_eq_true, beq_iff_eq] using h
  tauto

theorem ne128_of_not_unused (b : Nat) (h : is_unused true b = false) :
    b ≠ 128 := by
  intro hb
  subst hb
  simp [is_unused] at h

theorem ctrl_byte_at {K V : Type} (d : TableData K V) (idx : Nat) :
    ctrl_byte d (idx / 16) (idx % 16) = ctrl_at d idx := by
  unfold ctrl_byte
  rw [show idx / 16 * 16 + idx % 16 = idx by omega]

/-- The fresh-buffer invariant holds for an `init_data` buffer and no
entries. -/
theorem fresh_inv_init {K V : Type} [DecidableEq K] (hf : K → Nat)
    (c : Nat) : fresh_inv hf (init_data K V c) [] := by
  have hcap : capacity_impl (init_data K V c) = nm16 c := by
    simp [init_data, capacity_impl]
  have hctrl : ∀ i, i < nm16 c → ctrl_at (init_data K V c) i = 128 := by
    intro i hi
    unfold init_data ctrl_at
    exact getD_replicate _ _ _ _ hi
  have hslot : ∀ i, slot_at (init_data K V c) i = none := by
    intro i
    unfold init_data slot_at
    by_cases hi : i < nm16 c
    · exact getD_replicate _ _ _ _ hi
    · exact getD_of_ge _ _ _ (by simpa using hi)
  have hused : ∀ i, i < nm16 c →
      occupied_at (init_data K V c) i = false := by
    intro i hi
    unfold occupied_at
    rw [hctrl i hi]
    exact used_ctrl_empty
  refine ⟨?_, ?_, ?_⟩
  · refine wf_intro hf (init_data K V c) _ (by simp [init_data])
      (by rw [hcap]; exact nm16_mod c) ?_ ?_ ?_ ?_ ?_
    · intro idx hidx
      rw [hctrl idx (by simpa [capacity_impl, init_data] using hidx)]
      decide
    · intro idx hidx hocc
      rw [hused idx (by simpa [capacity_impl, init_data] using hidx)] at hocc
      cases hocc
    · intro idx _ _
      exact hslot idx
    · intro i j ki vi kj vj _ _ _ _ hsi _ _
      rw [hslot i] at hsi
      cases hsi
    · show 0 = occ_count (init_data K V c)
      refine (occ_count_none _ (fun g hg i hi => ?_)).symm
      rw [ctrl_byte]
      unfold occupied_at at hused
      exact hused _ (by rw [hcap] at hg; omega)
  · intro idx hidx
    rw [hctrl idx (by omega)]
    omega
  · intro k v
    constructor
    · intro hst
      obtain ⟨idx, _, _, hs⟩ := hst
      rw [hslot idx] at hs
      cases hs
    · intro h
      cases h

/-- One rehash step on a fresh buffer with spare capacity and a new key
succeeds and extends the invariant. -/
theorem rehash_slot_step {K V : Type} [DecidableEq K] {hf : K → Nat}
    {d : TableData K V} {P : List (K × V)} {k : K} {v : V}
    (hinv : fresh_inv hf d P)
    (hcap : P.length < capacity_impl d)
    (hnewkey : ∀ q ∈ P, q.1 ≠ k) :
    ∃ d', rehash_slot hf d (k, v) = some d' ∧
      capacity_impl d' = capacity_impl d ∧
      fresh_inv hf d' (P ++ [(k, v)]) := by
  obtain ⟨hwf, hnd, hcontent⟩ := hinv
  have hcap16 : capacity_impl d % 16 = 0 := wf_cap16 hwf
  have hgc : 0 < capacity_impl d / 16 := by omega
  have hlenP : P.length = occ_count d := wf_len hwf
  have hslen : d.slots.length = d.ctrl.length := wf_lengths hwf
  cases hfind : find_slot d k (hf k) true with
  | none =>
    exfalso
    have hall := find_slot_none_all_used hgc hfind
    have := occ_count_all_used hall
    omega
  | some p =>
    obtain ⟨idx, occ⟩ := p
    cases occ with
    | true =>
      exfalso
      obtain ⟨t, ht1, ht2, ht3, ht4, ht5⟩ := find_slot_path hfind
      rcases ht5 with ⟨_, hm⟩ | ⟨h', _⟩
      · obtain ⟨hocc', v', hslot'⟩ := slot_matches_stored hm (h2_lt (hf k))
        rw [← ht3] at hocc' hslot'
        have hst : stored_pair d k v' :=
          ⟨idx, by have := find_slot_lt hfind; omega, hocc', hslot'⟩
        exact hnewkey (k, v') ((hcontent k v').mp hst) rfl
      · cases h'
    | false =>
      obtain ⟨t, ht1, ht2, ht3, ht4, ht5⟩ := find_slot_path hfind
      rcases ht5 with ⟨h', _⟩ | ⟨_, hun, hnom⟩
      · cases h'
      have hidx : idx < capacity_impl d := by
        have := find_slot_lt hfind; omega
      have hdiv : idx / 16 = (h1 (hf k) % (capacity_impl d / 16) + t) %
          (capacity_impl d / 16) := by omega
      -- the found byte is `EMPTY`
      have hbyte : ctrl_at d idx = 128 := by
        have hbu : ctrl_at d idx &&& 128 = 128 := by
          have h' := hun
          rw [← hdiv, ctrl_byte_at] at h'
          simpa [is_unused] using h'
        rcases valid_byte_cases _ (wf_valid hwf idx hidx) with h' | h' | h'
        · exact h'
        · exact absurd h' (hnd idx hidx)
        · rw [land128_of_lt _ h'] at hbu
          omega
      have hoccF : occupied_at d idx = false := by
        unfold occupied_at
        rw [hbyte]
        exact used_ctrl_empty
      have hslotN : slot_at d idx = none := wf_unocc hwf idx hidx hoccF
      set d' : TableData K V :=
        { ctrl := d.ctrl.set idx (h2 (hf k)),
          slots := d.slots.set idx (some (k, v)) } with hd'
      have hcape : capacity_impl d' = capacity_impl d :=
        List.length_set _ _ _
      refine ⟨d', by simp only [rehash_slot, hfind], hcape, ?_⟩
      have hctrl_idx : ctrl_at d' idx = h2 (hf k) :=
        getD_set_eq _ _ _ _ hidx
      have hctrl_ne : ∀ j, j ≠ idx → ctrl_at d' j = ctrl_at d j := by
        intro j hj
        exact getD_set_ne _ _ _ _ _ (fun h => hj h.symm)
      have hslot_idx : slot_at d' idx = some (k, v) :=
        getD_set_eq _ _ _ _ (by rw [hslen]; exact hidx)
      have hslot_ne : ∀ j, j ≠ idx → slot_at d' j = slot_at d j := by
        intro j hj
        exact getD_set_ne _ _ _ _ _ (fun h => hj h.symm)
      have hocc_idx : occupied_at d' idx = true := by
        unfold occupied_at
        rw [hctrl_idx]
        exact used_ctrl_of_lt _ (h2_lt _)
      have hoccpres : ∀ j, j ≠ idx → occupied_at d' j = occupied_at d j := by
        intro j hj
        unfold occupied_at
        rw [hctrl_ne j hj]
      have hne128 : ∀ j, ctrl_at d j ≠ 128 → ctrl_at d' j ≠ 128 := by
        intro j hj
        by_cases hji : j = idx
        · subst hji
          rw [hctrl_idx]
          have := h2_lt (hf k)
          omega
        · rwa [hctrl_ne j hji]
      have hne128b : ∀ g j, ctrl_byte d g j ≠ 128 →
          ctrl_byte d' g j ≠ 128 := fun g j h => hne128 _ h
      refine ⟨?_, ?_, ?_⟩
      · -- well-formedness of the extended table
        refine wf_intro hf d' _ ?_ ?_ ?_ ?_ ?_ ?_ ?_
        · simp [hd', List.length_set, hslen]
        · rw [hcape]
          exact hcap16
        · intro j hj
          rw [hcape] at hj
          by_cases hji : j = idx
          · subst hji
            rw [hctrl_idx]
            exact valid_byte_of_lt _ (h2_lt _)
          · rw [hctrl_ne j hji]
            exact wf_valid hwf j hj
        · intro j hj hoccj
          rw [hcape] at hj
          by_cases hji : j = idx
          · subst hji
            refine ⟨k, v, hslot_idx, hctrl_idx, ?_⟩
            rw [hcape, hdiv,
              probe_dist _ _ _ (Nat.mod_lt _ hgc) (by omega)]
            intro t' ht' j' hj'
            have hgrp_ne : (h1 (hf k) % (capacity_impl d / 16) + t') %
                (capacity_impl d / 16) ≠
                (h1 (hf k) % (capacity_impl d / 16) + t) %
                (capacity_impl d / 16) := by
              intro he
              have := probe_inj _ _ _ _ (Nat.mod_lt _ hgc) (by omega) ht1 he
              omega
            have hclean := ht4 t' ht'
            have hbyte_ne : ctrl_byte d ((h1 (hf k) %
                (capacity_impl d / 16) + t') % (capacity_impl d / 16)) j' ≠
                128 := ne128_of_not_unused _ (hclean.2 j' hj')
            exact hne128b _ _ hbyte_ne
          · rw [hoccpres j hji] at hoccj
            obtain ⟨k0, v0, hs0, hc0, hfind0⟩ := wf_occ hwf j hj hoccj
            refine ⟨k0, v0, by rw [hslot_ne j hji]; exact hs0,
              by rw [hctrl_ne j hji]; exact hc0, ?_⟩
            rw [hcape]
            intro t' ht' j' hj'
            exact hne128b _ _ (hfind0 t' ht' j' hj')
        · intro j hj hoccj
          rw [hcape] at hj
          by_cases hji : j = idx
          · subst hji
            rw [hocc_idx] at hoccj
            cases hoccj
          · rw [hoccpres j hji] at hoccj
            rw [hslot_ne j hji]
            exact wf_unocc hwf j hj hoccj
        · intro i j ki vi kj vj hi hj hoi hoj hsi hsj hk
          rw [hcape] at hi hj
          by_cases hii : i = idx <;> by_cases hjj : j = idx
          · rw [hii, hjj]
          · exfalso
            subst hii
            rw [hslot_idx] at hsi
            injection hsi with hp
            injection hp with hk1 _
            rw [hoccpres j hjj] at hoj
            rw [hslot_ne j hjj] at hsj
            have hstj : stored_pair d kj vj := ⟨j, hj, hoj, hsj⟩
            have := hnewkey (kj, vj) ((hcontent kj vj).mp hstj)
            exact this (by rw [← hk, ← hk1])
          · exfalso
            subst hjj
            rw [hslot_idx] at hsj
            injection hsj with hp
            injection hp with hk1 _
            rw [hoccpres i hii] at hoi
            rw [hslot_ne i hii] at hsi
            have hsti : stored_pair d ki vi := ⟨i, hi, hoi, hsi⟩
            have := hnewkey (ki, vi) ((hcontent ki vi).mp hsti)
            exact this (by rw [hk, ← hk1])
          · rw [hoccpres i hii] at hoi
            rw [hoccpres j hjj] at hoj
            rw [hslot_ne i hii] at hsi
            rw [hslot_ne j hjj] at hsj
            exact wf_distinct hwf i j ki vi kj vj hi hj hoi hoj hsi hsj hk
        · show (P ++ [(k, v)]).length = occ_count d'
          rw [List.length_append,
            show occ_count d' = occ_count d + 1 from
              occ_count_set_occupied d idx (h2 (hf k)) _ hidx hcap16 hoccF
                (h2_lt _)]
          simp [hlenP]
      · -- no tombstones
        intro j hj
        rw [hcape] at hj
        by_cases hji : j = idx
        · subst hji
          rw [hctrl_idx]
          have := h2_lt (hf k)
          omega
        · rw [hctrl_ne j hji]
          exact hnd j hj
      · -- contents
        intro k' v'
        constructor
        · intro hst
          obtain ⟨j, hj, hoj, hsj⟩ := hst
          rw [hcape] at hj
          by_cases hji : j = idx
          · subst hji
            rw [hslot_idx] at hsj
            injection hsj with hp
            injection hp with hk1 hv1
            simp [← hk1, ← hv1]
          · rw [hoccpres j hji] at hoj
            rw [hslot_ne j hji] at hsj
            have : (k', v') ∈ P := (hcontent k' v').mp ⟨j, hj, hoj, hsj⟩
            simp [this]
        · intro hmem
          rcases List.mem_append.mp hmem with hmem | hmem
          · obtain ⟨j, hj, hoj, hsj⟩ := (hcontent k' v').mpr hmem
            have hji : j ≠ idx := by
              intro he
              subst he
              rw [hoj] at hoccF
              cases hoccF
            exact ⟨j, by rw [hcape]; exact hj,
              by rw [hoccpres j hji]; exact hoj,
              by rw [hslot_ne j hji]; exact hsj⟩
          · have : (k', v') = (k, v) := by simpa using hmem
            injection this with hk1 hv1
            subst hk1
            subst hv1
            exact ⟨idx, by rw [hcape]; exact hidx, hocc_idx, hslot_idx⟩

/-- The rehash loop succeeds on any suffix of fresh, distinct entries that
fits into the capacity. -/
theorem rehash_all_go {K V : Type} [DecidableEq K] {hf : K → Nat} :
    ∀ (P Q : List (K × V)) (d : TableData K V),
      fresh_inv hf d Q →
      Q.length + P.length ≤ capacity_impl d →
      (∀ p ∈ P, ∀ q ∈ Q, q.1 ≠ p.1) →
      List.Pairwise (fun a b => a.1 ≠ b.1) P →
      ∃ d', rehash_all hf P d = some d' ∧
        capacity_impl d' = capacity_impl d ∧
        fresh_inv hf d' (Q ++ P) := by
  intro P
  induction P with
  | nil =>
    intro Q d hinv _ _ _
    exact ⟨d, rfl, rfl, by simpa using hinv⟩
  | cons kv P ih =>
    intro Q d hinv hlen hnew hpair
    obtain ⟨k, v⟩ := kv
    simp only [List.length_cons] at hlen
    obtain ⟨d1, hstep, hcap1, hinv1⟩ := rehash_slot_step hinv (by omega)
      (fun q hq => hnew (k, v) (by simp) q hq)
    obtain ⟨d2, hrest, hcap2, hinv2⟩ := ih (Q ++ [(k, v)]) d1 hinv1
      (by rw [hcap1]; simp only [List.length_append, List.length_cons,
        List.length_nil]; omega)
      (fun p hp q hq => by
        rcases List.mem_append.mp hq with hq | hq
        · exact hnew p (by simp [hp]) q hq
        · have hq' : q = (k, v) := by simpa using hq
          subst hq'
          exact (List.pairwise_cons.mp hpair).1 p hp)
      (List.pairwise_cons.mp hpair).2
    refine ⟨d2, ?_, by rw [hcap2, hcap1], ?_⟩
    · show List.foldlM _ d ((k, v) :: P) = some d2
      rw [List.foldlM_cons, hstep]
      exact hrest
    · rw [List.append_assoc] at hinv2
      simpa using hinv2

theorem capacity_init {K V : Type} (c : Nat) :
    capacity_impl (init_data K V c) = nm16 c := by
  simp [init_data, capacity_impl]

/-- Inversion of a produced sweep entry. -/
theorem sweep_entry_inv {K V : Type} {d : TableData K V} {g i : Nat}
    {kv : K × V} (h : sweep_entry d g i = some kv) :
    used_ctrl (ctrl_byte d g i) = true ∧ slot_at d (g * 16 + i) = some kv := by
  unfold sweep_entry at h
  by_cases hu : used_ctrl (ctrl_byte d g i) = true
  · rw [if_pos hu] at h
    exact ⟨hu, h⟩
  · rw [if_neg hu] at h
    cases h

/-- Membership in the sweep list is exactly storedness. -/
theorem mem_occupied_entries {K V : Type} (d : TableData K V)
    (hcap : capacity_impl d % 16 = 0) (k : K) (v : V) :
    (k, v) ∈ occupied_entries d ↔ stored_pair d k v := by
  unfold occupied_entries
  rw [List.mem_flatMap]
  constructor
  · rintro ⟨g, hg, hmem⟩
    rw [List.mem_filterMap] at hmem
    obtain ⟨i, hi, hsw⟩ := hmem
    obtain ⟨hu, hslot⟩ := sweep_entry_inv hsw
    have hg' : g < capacity_impl d / 16 := List.mem_range.mp hg
    have hi' : i < 16 := List.mem_range.mp hi
    exact ⟨g * 16 + i, by omega, hu, hslot⟩
  · rintro ⟨idx, hidx, hocc, hslot⟩
    refine ⟨idx / 16, List.mem_range.mpr (by omega), ?_⟩
    rw [List.mem_filterMap]
    refine ⟨idx % 16, List.mem_range.mpr (by omega), ?_⟩
    unfold sweep_entry
    rw [ctrl_byte_at, show idx / 16 * 16 + idx % 16 = idx by omega,
      if_pos (show used_ctrl (ctrl_at d idx) = true from hocc)]
    exact hslot

/-- Distinct slots of a well-formed map hold distinct keys. -/
theorem stored_at_ne {K V : Type} [DecidableEq K] {hf : K → Nat}
    {m : HashMap K V} (hwf : wf hf m = true) {i j : Nat} {x y : K × V}
    (hne : i ≠ j) (hi : i < capacity_impl m.data)
    (hj : j < capacity_impl m.data)
    (hoi : occupied_at m.data i = true) (hoj : occupied_at m.data j = true)
    (hsi : slot_at m.data i = some x) (hsj : slot_at m.data j = some y) :
    x.1 ≠ y.1 := by
  intro hk
  exact hne (wf_distinct hwf i j x.1 x.2 y.1 y.2 hi hj hoi hoj
    (by rw [hsi]) (by rw [hsj]) hk)

/-- The sweep of a well-formed map lists pairwise-distinct keys. -/
theorem occupied_entries_pairwise {K V : Type} [DecidableEq K]
    {hf : K → Nat} {m : HashMap K V} (hwf : wf hf m = true) :
    List.Pairwise (fun a b : K × V => a.1 ≠ b.1)
      (occupied_entries m.data) := by
  have hcap := wf_cap16 hwf
  unfold occupied_entries
  rw [List.pairwise_flatMap]
  constructor
  · intro g hg
    have hg' : g < capacity_impl m.data / 16 := List.mem_range.mp hg
    rw [List.pairwise_filterMap]
    refine List.Pairwise.imp_of_mem ?_ (List.pairwise_lt_range 16)
    intro i j hi hj hij x hx y hy
    rw [Option.mem_def] at hx hy
    obtain ⟨hui, hsi⟩ := sweep_entry_inv hx
    obtain ⟨huj, hsj⟩ := sweep_entry_inv hy
    have hi' : i < 16 := List.mem_range.mp hi
    have hj' : j < 16 := List.mem_range.mp hj
    exact stored_at_ne hwf (show g * 16 + i ≠ g * 16 + j by omega)
      (by omega) (by omega) hui huj hsi hsj
  · refine List.Pairwise.imp_of_mem ?_
      (List.pairwise_lt_range (capacity_impl m.data / 16))
    intro g g' hgmem hgmem' hgg x hx y hy
    rw [List.mem_filterMap] at hx hy
    obtain ⟨i, hi, hswi⟩ := hx
    obtain ⟨j, hj, hswj⟩ := hy
    obtain ⟨hui, hsi⟩ := sweep_entry_inv hswi
    obtain ⟨huj, hsj⟩ := sweep_entry_inv hswj
    have hi' : i < 16 := List.mem_range.mp hi
    have hj' : j < 16 := List.mem_range.mp hj
    have hg1 : g < capacity_impl m.data / 16 := List.mem_range.mp hgmem
    have hg2 : g' < capacity_impl m.data / 16 := List.mem_range.mp hgmem'
    exact stored_at_ne hwf (show g * 16 + i ≠ g' * 16 + j by omega)
      (by omega) (by omega) hui huj hsi hsj

/-- The sweep lists exactly as many entries as there are occupied slots,
provided occupied slots are initialized (which well-formedness gives). -/
theorem occupied_entries_length {K V : Type} {d : TableData K V}
    (hsome : ∀ idx, idx < capacity_impl d → occupied_at d idx = true →
      (slot_at d idx).isSome = true)
    (hcap : capacity_impl d % 16 = 0) :
    (occupied_entries d).length = occ_count d := by
  unfold occupied_entries occ_count
  rw [List.length_flatMap]
  congr 1
  refine List.map_congr_left (fun g hg => ?_)
  have hg' : g < capacity_impl d / 16 := List.mem_range.mp hg
  simp only [Function.comp_apply]
  rw [length_filterMap_countP, List.countP_eq_length_filter]
  congr 1
  refine List.filter_congr (fun i hi => ?_)
  have hi' : i < 16 := List.mem_range.mp hi
  unfold sweep_entry
  by_cases hu : used_ctrl (ctrl_byte d g i) = true
  · rw [if_pos hu, hu]
    have := hsome (g * 16 + i) (by omega) hu
    simpa using this
  · rw [if_neg hu]
    simp only [Option.isSome_none]
    exact (Bool.eq_false_iff.mpr (fun h => hu h)).symm

/-- `reserve` with a successful allocation on a well-formed map: no panic,
`Ok`, length preserved, capacity covering the request at a multiple of 16,
and contents preserved. -/
theorem reserve_ok {K V : Type} [DecidableEq K] {hf : K → Nat}
    {m : HashMap K V} (n : Nat) (hwf : wf hf m = true) :
    ∃ m', reserve hf m n true = some (m', Except.ok ()) ∧
      wf hf m' = true ∧ m'.len = m.len ∧
      m.len + n ≤ capacity_impl m'.data ∧
      capacity_impl m'.data % 16 = 0 ∧
      (∀ k v, stored_pair m'.data k v ↔ stored_pair m.data k v) := by
  by_cases hno : np2 (m.len + n) ≤ capacity_impl m.data
  · refine ⟨m, ?_, hwf, rfl, ?_, wf_cap16 hwf, fun k v => Iff.rfl⟩
    · unfold reserve
      rw [if_pos hno]
    · have := np2_ge (m.len + n)
      omega
  · have hsome : ∀ idx, idx < capacity_impl m.data →
        occupied_at m.data idx = true → (slot_at m.data idx).isSome = true := by
      intro idx hidx hocc
      obtain ⟨k, v, hs, _, _⟩ := wf_occ hwf idx hidx hocc
      simp [hs]
    have hPlen : (occupied_entries m.data).length = m.len := by
      rw [occupied_entries_length hsome (wf_cap16 hwf), ← wf_len hwf]
    have hfit : ([] : List (K × V)).length +
        (occupied_entries m.data).length ≤
        capacity_impl (init_data K V (np2 (m.len + n))) := by
      rw [capacity_init, hPlen]
      have h1 := np2_ge (m.len + n)
      have h2 := nm16_ge (np2 (m.len + n))
      simp only [List.length_nil]
      omega
    obtain ⟨d', hall, hcap', hinv'⟩ := rehash_all_go (occupied_entries m.data)
      [] (init_data K V (np2 (m.len + n))) (fresh_inv_init hf _) hfit
      (fun p _ q hq => absurd hq (List.not_mem_nil q))
      (occupied_entries_pairwise hwf)
    obtain ⟨hwf', _, hcontent'⟩ := hinv'
    have hPlen' : (([] : List (K × V)) ++ occupied_entries m.data).length =
        m.len := by simpa using hPlen
    refine ⟨{ data := d', len := m.len }, ?_, ?_, rfl, ?_, ?_, ?_⟩
    · unfold reserve
      rw [if_neg hno, if_neg (by simp), hall]
    · rwa [hPlen'] at hwf'
    · rw [hcap', capacity_init]
      have h1 := np2_ge (m.len + n)
      have h2 := nm16_ge (np2 (m.len + n))
      omega
    · rw [hcap', capacity_init]
      exact nm16_mod _
    · intro k v
      rw [show stored_pair ({ data := d', len := m.len } : HashMap K V).data
          k v = stored_pair d' k v from rfl,
        hcontent' k v]
      simp only [List.nil_append]
      exact mem_occupied_entries m.data (wf_cap16 hwf) k v

/-- C5. After every successful `reserve(n)` on a well-formed map the
capacity covers `len() + n` and is a multiple of 16, the length is
unchanged, and every key maps to the same value as before the call (growth
preserves all stored data across rehashing).  Moreover on a well-formed map
`reserve` with a successful allocation always returns `Ok` (no internal
panic). -/
theorem c5_reserve_preserves {K V : Type} [DecidableEq K] (hf : K → Nat)
    (m : HashMap K V) (n : Nat) (hwf : wf hf m = true) :
    ∃ m', reserve hf m n true = some (m', Except.ok ()) ∧
      m'.len = m.len ∧
      m.len + n ≤ capacity_impl m'.data ∧
      capacity_impl m'.data % 16 = 0 ∧
      ∀ k, get hf m' k = get hf m k := by
  obtain ⟨m', hres, hwf', hlen, hcap, hmod, hstored⟩ := reserve_ok n hwf
  refine ⟨m', hres, hlen, hcap, hmod, fun k => ?_⟩
  cases hg : get hf m k with
  | some v =>
    exact get_of_stored hwf' ((hstored k v).mpr (stored_of_get hg))
  | none =>
    cases hg' : get hf m' k with
    | none => rfl
    | some v =>
      have := get_of_stored hwf ((hstored k v).mp (stored_of_get hg'))
      rw [hg] at this
      cases this

set_option maxRecDepth 16384 in
/-- Witness for C5: growing a full reachable capacity-16 map by 5. -/
theorem c5_reserve_preserves_witness :
    ∃ m', reserve hf_id full_map 5 true = some (m', Except.ok ()) ∧
      m'.len = full_map.len ∧
      full_map.len + 5 ≤ capacity_impl m'.data ∧
      capacity_impl m'.data % 16 = 0 ∧
      ∀ k, get hf_id m' k = get hf_id full_map k :=
  c5_reserve_preserves hf_id full_map 5 (by decide)

/-- On a map satisfying the `wf` invariant (in particular pairwise-distinct
stored keys), a probe failure followed by a successful growth is panic-free:
`reserve(1)` returns `Ok` without hitting its internal `unwrap`/`assert!`,
and the retried insertion finds a slot and returns `Ok(None)`.  This is the
property claim C1 asserts of every map state; the code does not maintain the
distinct-keys invariant (see C6), and on the reachable duplicate-key states
the rehash assertion fires — the refuting evaluation follows below. -/
theorem wf_growth_retry_succeeds {K V : Type} [DecidableEq K] (hf : K → Nat)
    (m : HashMap K V) (k : K) (v : V) (hwf : wf hf m = true)
    (hfull : find_slot m.data k (hf k) true = none) :
    (∃ m1, reserve hf m 1 true = some (m1, Except.ok ())) ∧
    (∃ m2, insert hf 2 m k v true = some (m2, Except.ok none)) := by
  obtain ⟨m1, hres, hwf1, hlen1, hcap1, hmod1, hstored1⟩ := reserve_ok 1 hwf
  have hnotstored : ∀ v', ¬ stored_pair m.data k v' :=
    find_slot_none_not_stored hwf hfull
  have hgc1 : 0 < capacity_impl m1.data / 16 := by omega
  have hfind1 : ∃ idx, find_slot m1.data k (hf k) true =
      some (idx, false) := by
    cases hf1 : find_slot m1.data k (hf k) true with
    | none =>
      exfalso
      have hall := find_slot_none_all_used hgc1 hf1
      have hocc := occ_count_all_used hall
      have hlen' := wf_len hwf1
      omega
    | some p =>
      obtain ⟨idx, occ⟩ := p
      cases occ with
      | false => exact ⟨idx, rfl⟩
      | true =>
        exfalso
        obtain ⟨t, _, ht2, ht3, _, ht5⟩ := find_slot_path hf1
        rcases ht5 with ⟨_, hm'⟩ | ⟨h', _⟩
        · obtain ⟨hocc', v', hslot'⟩ := slot_matches_stored hm' (h2_lt (hf k))
          rw [← ht3] at hocc' hslot'
          have hst : stored_pair m1.data k v' :=
            ⟨idx, by have := find_slot_lt hf1; omega, hocc', hslot'⟩
          exact hnotstored v' ((hstored1 k v').mp hst)
        · cases h'
  obtain ⟨idx, hfind1⟩ := hfind1
  refine ⟨⟨m1, hres⟩,
    ⟨{ data := { ctrl := m1.data.ctrl.set idx (h2 (hf k)),
                 slots := m1.data.slots.set idx (some (k, v)) },
       len := m1.len + 1 }, ?_⟩⟩
  simp only [insert, hfull, hres, hfind1]

set_option maxRecDepth 16384 in
/-- Concrete instance of the conditional lemma above: the reachable full
capacity-16 map, whose probe for the absent key 16 wraps without finding a
usable slot. -/
theorem wf_growth_retry_instance :
    (∃ m1, reserve hf_id full_map 1 true = some (m1, Except.ok ())) ∧
    (∃ m2, insert hf_id 2 full_map 16 99 true = some (m2, Except.ok none)) :=
  wf_growth_retry_succeeds hf_id full_map 16 99 (by decide) (by decide)

set_option maxRecDepth 65536 in
/-- C1 fails on the code: evaluation at the failing input.  `clash_map` is
reachable via the public API: insert keys 0..16 with value = key, remove
key 0, insert `(16, 99)` — which by the C6 tombstone-shadowing bug stores a
second copy of key 16 — then insert keys 17..31, leaving both groups of the
capacity-32 buffer completely occupied with len = 32 and key 16 stored
twice.  `insert(32, 32)`'s initial probe then finds no usable slot, and the
growth allocation succeeds (`alloc_ok = true`, the new capacity being
`next_power_of_two(33) = 64`), yet `reserve` panics during the rehash: the
copy of key 16 at slot 0 is moved into the fresh buffer first, and when the
loop reaches the second copy at slot 16, `find_slot` on the fresh buffer
reports the key as already occupied, so `assert!(!occupied)` fails.  In the
model both the `reserve` call and the retried insert evaluate to `none`
(the panic) — the branch the claim declares unreachable after a successful
growth. -/
theorem c1_rehash_assert_panics :
    clash_map.len = 32 ∧
    get hf_id clash_map 16 = some 99 ∧
    find_slot clash_map.data 32 (hf_id 32) true = none ∧
    reserve hf_id clash_map 1 true = none ∧
    insert hf_id 2 clash_map 32 32 true = none := by
  decide

set_option maxRecDepth 32768 in
/-- C6 fails on the code: evaluation at the failing input.  In `shadow_map`
(reachable via the public API: insert keys 0..16 with value = key, then
remove key 0) the key 16 is present (`get` returns 16, `contains_key` is
true, len = 16), yet `insert(16, 99)` returns `Ok(None)` instead of
`Ok(Some(16))` and bumps the length to 17: the tombstone left in group 0
shadows the occupied slot of key 16 in group 1, so the tombstone-reusing
probe stops early and stores a second copy of key 16 — contradicting
`insert`'s own documentation ("If the key was already present, the function
returns the previous value").  The subsequent `get(16)` does return the new
value 99. -/
theorem c6_insert_shadowed_duplicate :
    shadow_map.len = 16 ∧
    contains_key hf_id shadow_map 16 = true ∧
    get hf_id shadow_map 16 = some 16 ∧
    (insert hf_id 2 shadow_map 16 99 true).map
      (fun r => (r.1.len, r.2, get hf_id r.1 16)) =
      some (17, Except.ok none, some 99) := by
  decide

/-- When the group still holds an `EMPTY` byte, the replacement byte
computed by `remove`/`retain` is `EMPTY`. -/
theorem group_unused_decision_empty {K V : Type} (d : TableData K V)
    (g : Nat) (h : ∃ j, j < 16 ∧ ctrl_byte d g j = 128) :
    (match group_match_unused d g false with
     | some _ => (128 : Nat)
     | none => 254) = 128 := by
  cases hfu : group_match_unused d g false with
  | some i => rfl
  | none =>
    exfalso
    obtain ⟨j, hj, hbyte⟩ := h
    have := List.find?_eq_none.mp hfu j (List.mem_range.mpr hj)
    simp [is_unused, hbyte] at this

/-- When the group holds no `EMPTY` byte, the replacement byte is the
`DELETED` tombstone. -/
theorem group_unused_decision_deleted {K V : Type} (d : TableData K V)
    (g : Nat) (h : ∀ j, j < 16 → ctrl_byte d g j ≠ 128) :
    (match group_match_unused d g false with
     | some _ => (128 : Nat)
     | none => 254) = 254 := by
  cases hfu : group_match_unused d g false with
  | none => rfl
  | some i =>
    exfalso
    have hp := List.find?_some (show (List.range 16).find?
      (fun j => is_unused false (ctrl_byte d g j)) = some i from hfu)
    have hm := List.mem_of_find?_eq_some (show (List.range 16).find?
      (fun j => is_unused false (ctrl_byte d g j)) = some i from hfu)
    exact h i (List.mem_range.mp hm) (by simpa [is_unused] using hp)

/-- C4. `remove(k)` returns `none` and leaves the map unchanged when `k` is
absent; when `k` is present it returns the stored value, decrements the
length by one, and sets the vacated slot's control byte to `EMPTY` (0x80)
if the slot's group contained at least one `EMPTY` control byte before the
removal, and to `DELETED` (0xfe) if the group had no `EMPTY` byte before
the removal. -/
theorem c4_remove {K V : Type} [DecidableEq K] (hf : K → Nat)
    (m : HashMap K V) (k : K) (hwf : wf hf m = true) :
    (contains_key hf m k = false → remove hf m k = (m, none)) ∧
    (contains_key hf m k = true →
      ∃ idx v, find_slot m.data k (hf k) false = some (idx, true) ∧
        slot_at m.data idx = some (k, v) ∧
        (remove hf m k).2 = some v ∧
        (remove hf m k).1.len + 1 = m.len ∧
        ((∃ j, j < 16 ∧ ctrl_byte m.data (idx / 16) j = CTRL_EMPTY) →
          (remove hf m k).1.data.ctrl =
            m.data.ctrl.set idx CTRL_EMPTY) ∧
        ((∀ j, j < 16 → ctrl_byte m.data (idx / 16) j ≠ CTRL_EMPTY) →
          (remove hf m k).1.data.ctrl =
            m.data.ctrl.set idx CTRL_DELETED)) := by
  have hcap := wf_cap16 hwf
  constructor
  · intro hck
    have hget : get hf m k = none := by
      unfold contains_key at hck
      cases hg : get hf m k with
      | none => rfl
      | some v => rw [hg] at hck; cases hck
    cases hres : find_slot m.data k (hf k) false with
    | none => simp only [remove, hres]
    | some p =>
      obtain ⟨idx, occ⟩ := p
      cases occ with
      | false => simp only [remove, hres]
      | true =>
        exfalso
        obtain ⟨t, _, ht2, ht3, _, ht5⟩ := find_slot_path hres
        rcases ht5 with ⟨_, hm'⟩ | ⟨h', _⟩
        · obtain ⟨_, v', hslot'⟩ := slot_matches_stored hm' (h2_lt (hf k))
          rw [← ht3] at hslot'
          have h' := hget
          unfold get at h'
          rw [hres] at h'
          have h'' : (slot_at m.data idx).map (fun x => x.2) = none := h'
          rw [hslot'] at h''
          cases h''
        · cases h'
  · intro hck
    obtain ⟨v0, hget⟩ : ∃ v0, get hf m k = some v0 := by
      unfold contains_key at hck
      cases hg : get hf m k with
      | none => rw [hg] at hck; cases hck
      | some v => exact ⟨v, rfl⟩
    cases hres : find_slot m.data k (hf k) false with
    | none =>
      exfalso
      have h' := hget
      unfold get at h'
      rw [hres] at h'
      cases h'
    | some p =>
      obtain ⟨idx, occ⟩ := p
      cases occ with
      | false =>
        exfalso
        have h' := hget
        unfold get at h'
        rw [hres] at h'
        cases h'
      | true =>
        have h' := hget
        unfold get at h'
        rw [hres] at h'
        have hmap : (slot_at m.data idx).map (fun x => x.2) = some v0 := h'
        obtain ⟨t, _, ht2, ht3, _, ht5⟩ := find_slot_path hres
        rcases ht5 with ⟨_, hm'⟩ | ⟨hcontra, _⟩
        swap
        · cases hcontra
        obtain ⟨hocc', v', hslot'⟩ := slot_matches_stored hm' (h2_lt (hf k))
        rw [← ht3] at hocc' hslot'
        have hidxlt : idx < capacity_impl m.data := by
          have := find_slot_lt hres
          omega
        have hst : stored_pair m.data k v' := ⟨idx, hidxlt, hocc', hslot'⟩
        have hlenpos : 1 ≤ m.len := by
          have hsome : ∀ i, i < capacity_impl m.data →
              occupied_at m.data i = true →
              (slot_at m.data i).isSome = true := by
            intro i hi ho
            obtain ⟨k1, v1, hs1, _, _⟩ := wf_occ hwf i hi ho
            simp [hs1]
          have hmem := (mem_occupied_entries m.data hcap k v').mpr hst
          rw [wf_len hwf, ← occupied_entries_length hsome hcap]
          cases ho : occupied_entries m.data with
          | nil => rw [ho] at hmem; cases hmem
          | cons a l => simp [ho]
        refine ⟨idx, v', rfl, hslot', ?_, ?_, ?_, ?_⟩
        · show (remove hf m k).2 = some v'
          simp only [remove, hres]
          simp [hslot']
        · show (remove hf m k).1.len + 1 = m.len
          simp only [remove, hres]
          omega
        · intro hex
          show (remove hf m k).1.data.ctrl = _
          simp only [remove, hres]
          rw [group_unused_decision_empty m.data (idx / 16) hex]
          rfl
        · intro hnone
          show (remove hf m k).1.data.ctrl = _
          simp only [remove, hres]
          rw [group_unused_decision_deleted m.data (idx / 16) hnone]
          rfl

/-- Witness for C4: removal of the absent key 2 and the present key 1 from
a small reachable map. -/
theorem c4_remove_witness :
    (remove hf_id sample_map 2 = (sample_map, none)) ∧
    (∃ idx v, find_slot sample_map.data 1 (hf_id 1) false =
        some (idx, true) ∧
      slot_at sample_map.data idx = some (1, v) ∧
      (remove hf_id sample_map 1).2 = some v ∧
      (remove hf_id sample_map 1).1.len + 1 = sample_map.len ∧
      ((∃ j, j < 16 ∧ ctrl_byte sample_map.data (idx / 16) j = CTRL_EMPTY) →
        (remove hf_id sample_map 1).1.data.ctrl =
          sample_map.data.ctrl.set idx CTRL_EMPTY) ∧
      ((∀ j, j < 16 → ctrl_byte sample_map.data (idx / 16) j ≠ CTRL_EMPTY) →
        (remove hf_id sample_map 1).1.data.ctrl =
          sample_map.data.ctrl.set idx CTRL_DELETED)) :=
  ⟨(c4_remove hf_id sample_map 2 (by decide)).1 (by decide),
   (c4_remove hf_id sample_map 1 (by decide)).2 (by decide)⟩

/-! ### Characterisation of `retain` -/


theorem retain_writes_lengths {K V : Type} (b g : Nat) :
    ∀ (l : List Nat) (d : TableData K V),
      (retain_writes b g l d).ctrl.length = d.ctrl.length ∧
      (retain_writes b g l d).slots.length = d.slots.length := by
  intro l
  induction l with
  | nil => intro d; exact ⟨rfl, rfl⟩
  | cons i tl ih =>
    intro d
    have h := ih { ctrl := d.ctrl.set (g * 16 + i) b,
                   slots := d.slots.set (g * 16 + i) none }
    refine ⟨?_, ?_⟩
    · rw [show retain_writes b g (i :: tl) d = retain_writes b g tl
        { ctrl := d.ctrl.set (g * 16 + i) b,
          slots := d.slots.set (g * 16 + i) none } from rfl, h.1]
      exact List.length_set _ _ _
    · rw [show retain_writes b g (i :: tl) d = retain_writes b g tl
        { ctrl := d.ctrl.set (g * 16 + i) b,
          slots := d.slots.set (g * 16 + i) none } from rfl, h.2]
      exact List.length_set _ _ _

theorem retain_writes_frame {K V : Type} (b g : Nat) :
    ∀ (l : List Nat) (d : TableData K V) (idx : Nat),
      (∀ i ∈ l, g * 16 + i ≠ idx) →
      ctrl_at (retain_writes b g l d) idx = ctrl_at d idx ∧
      slot_at (retain_writes b g l d) idx = slot_at d idx := by
  intro l
  induction l with
  | nil => intro d idx _; exact ⟨rfl, rfl⟩
  | cons i tl ih =>
    intro d idx hne
    have hstep := ih { ctrl := d.ctrl.set (g * 16 + i) b,
                       slots := d.slots.set (g * 16 + i) none } idx
      (fun i' hi' => hne i' (by simp [hi']))
    have hni : g * 16 + i ≠ idx := hne i (by simp)
    refine ⟨?_, ?_⟩
    · rw [show retain_writes b g (i :: tl) d = retain_writes b g tl
        { ctrl := d.ctrl.set (g * 16 + i) b,
          slots := d.slots.set (g * 16 + i) none } from rfl, hstep.1]
      exact getD_set_ne _ _ _ _ _ hni
    · rw [show retain_writes b g (i :: tl) d = retain_writes b g tl
        { ctrl := d.ctrl.set (g * 16 + i) b,
          slots := d.slots.set (g * 16 + i) none } from rfl, hstep.2]
      exact getD_set_ne _ _ _ _ _ hni

theorem retain_writes_hit {K V : Type} (b g : Nat) :
    ∀ (l : List Nat) (d : TableData K V),
      (∀ i ∈ l, g * 16 + i < d.ctrl.length ∧ g * 16 + i < d.slots.length) →
      ∀ i ∈ l, ctrl_at (retain_writes b g l d) (g * 16 + i) = b ∧
        slot_at (retain_writes b g l d) (g * 16 + i) = none := by
  intro l
  induction l with
  | nil => intro d _ i hi; cases hi
  | cons i0 tl ih =>
    intro d hrange i hi
    set d1 : TableData K V := { ctrl := d.ctrl.set (g * 16 + i0) b,
                                slots := d.slots.set (g * 16 + i0) none }
      with hd1
    have hfold : retain_writes b g (i0 :: tl) d = retain_writes b g tl d1 :=
      rfl
    have hlen1 : d1.ctrl.length = d.ctrl.length := List.length_set _ _ _
    have hlen2 : d1.slots.length = d.slots.length := List.length_set _ _ _
    have hrange1 : ∀ i' ∈ tl, g * 16 + i' < d1.ctrl.length ∧
        g * 16 + i' < d1.slots.length := by
      intro i' hi'
      rw [hlen1, hlen2]
      exact hrange i' (by simp [hi'])
    rcases List.mem_cons.mp hi with rfl | hmem
    · by_cases htl : i ∈ tl
      · exact ih d1 hrange1 i htl
      · have hfr := retain_writes_frame b g tl d1 (g * 16 + i)
          (fun i' hi' => by
            intro he
            have : i' = i := by omega
            exact htl (this ▸ hi'))
        rw [hfold, hfr.1, hfr.2]
        constructor
        · exact getD_set_eq _ _ _ _ (hrange i (by simp)).1
        · exact getD_set_eq _ _ _ _ (hrange i (by simp)).2
    · rw [hfold]
      exact ih d1 hrange1 i hmem

/-- Full characterisation of `retain_group`: lengths, frame outside the
group, removed and kept slots, and the removal count. -/
theorem retain_group_spec {K V : Type} [DecidableEq K] (f : K → V → Bool)
    (d1 : TableData K V) (g : Nat)
    (hlen : d1.slots.length = d1.ctrl.length)
    (hg : (g + 1) * 16 ≤ d1.ctrl.length) :
    (retain_group f d1 g).1.ctrl.length = d1.ctrl.length ∧
    (retain_group f d1 g).1.slots.length = d1.slots.length ∧
    (∀ idx, (∀ i, i < 16 → g * 16 + i ≠ idx) →
      ctrl_at (retain_group f d1 g).1 idx = ctrl_at d1 idx ∧
      slot_at (retain_group f d1 g).1 idx = slot_at d1 idx) ∧
    (∀ i, i < 16 → retain_rem f d1 g i = true →
      ctrl_at (retain_group f d1 g).1 (g * 16 + i) =
        (match group_match_unused d1 g false with
         | some _ => 128
         | none => 254) ∧
      slot_at (retain_group f d1 g).1 (g * 16 + i) = none) ∧
    (∀ i, i < 16 → retain_rem f d1 g i = false →
      ctrl_at (retain_group f d1 g).1 (g * 16 + i) =
        ctrl_at d1 (g * 16 + i) ∧
      slot_at (retain_group f d1 g).1 (g * 16 + i) =
        slot_at d1 (g * 16 + i)) ∧
    (retain_group f d1 g).2 =
      ((List.range 16).filter (retain_rem f d1 g)).length := by
  have hgrp : retain_group f d1 g =
      (retain_writes (match group_match_unused d1 g false with
         | some _ => 128
         | none => 254) g
        ((List.range 16).filter (retain_rem f d1 g)) d1,
       ((List.range 16).filter (retain_rem f d1 g)).length) := by
    unfold retain_group retain_writes retain_rem
    rfl
  rw [hgrp]
  have hrange : ∀ i ∈ (List.range 16).filter (retain_rem f d1 g),
      g * 16 + i < d1.ctrl.length ∧ g * 16 + i < d1.slots.length := by
    intro i hi
    have : i < 16 := List.mem_range.mp (List.mem_of_mem_filter hi)
    omega
  refine ⟨(retain_writes_lengths _ _ _ _).1, (retain_writes_lengths _ _ _ _).2,
    ?_, ?_, ?_, rfl⟩
  · intro idx hne
    exact retain_writes_frame _ _ _ _ idx
      (fun i hi => hne i (List.mem_range.mp (List.mem_of_mem_filter hi)))
  · intro i hi hrem
    exact retain_writes_hit _ _ _ _ hrange i
      (List.mem_filter.mpr ⟨List.mem_range.mpr hi, hrem⟩)
  · intro i hi hrem
    refine retain_writes_frame _ _ _ _ _ (fun i' hi' => ?_)
    have h1 : i' < 16 := List.mem_range.mp (List.mem_of_mem_filter hi')
    have h2 : retain_rem f d1 g i' = true := (List.mem_filter.mp hi').2
    intro he
    have : i' = i := by omega
    subst this
    rw [h2] at hrem
    cases hrem

theorem find?_congr {α : Type} (l : List α) (p q : α → Bool)
    (h : ∀ a ∈ l, p a = q a) : l.find? p = l.find? q := by
  induction l with
  | nil => rfl
  | cons x xs ih =>
    rw [List.find?_cons, List.find?_cons, h x (by simp)]
    split
    · rfl
    · exact ih (fun a ha => h a (by simp [ha]))

theorem countP_le_countP {α : Type} (l : List α) (p q : α → Bool)
    (h : ∀ a ∈ l, p a = true → q a = true) : l.countP p ≤ l.countP q := by
  induction l with
  | nil => exact Nat.le_refl _
  | cons x xs ih =>
    rw [List.countP_cons, List.countP_cons]
    have hxs := ih (fun a ha => h a (by simp [ha]))
    by_cases hx : p x = true
    · rw [hx, h x (by simp) hx]
      omega
    · have : p x = false := by simpa using hx
      rw [this]
      simp only [Bool.false_eq_true, if_false]
      split <;> omega

theorem length_filter_filterMap {α β : Type} (l : List α) (f : α → Option β)
    (p : β → Bool) :
    ((l.filterMap f).filter p).length =
      l.countP (fun a => match f a with
        | some b => p b
        | none => false) := by
  induction l with
  | nil => rfl
  | cons x xs ih =>
    rw [List.filterMap_cons, List.countP_cons]
    cases hfx : f x with
    | none => simpa [hfx] using ih
    | some b =>
      rw [List.filter_cons]
      cases hpb : p b <;> simp [hfx, hpb, ih]

theorem length_filter_flatMap {α β : Type} (l : List α) (f : α → List β)
    (p : β → Bool) :
    ((l.flatMap f).filter p).length =
      (l.map (fun a => ((f a).filter p).length)).sum := by
  induction l with
  | nil => rfl
  | cons x xs ih =>
    rw [List.flatMap_cons, List.filter_append, List.length_append, ih,
      List.map_cons, List.sum_cons]

/-- The group decisions and removal predicate of `retain_group` only depend
on the group's own bytes and slots. -/
theorem retain_group_congr {K V : Type} [DecidableEq K] (f : K → V → Bool)
    (d d1 : TableData K V) (g : Nat)
    (hagree : ∀ i, i < 16 →
      ctrl_at d1 (g * 16 + i) = ctrl_at d (g * 16 + i) ∧
      slot_at d1 (g * 16 + i) = slot_at d (g * 16 + i)) :
    (∀ i, i < 16 → retain_rem f d1 g i = retain_rem f d g i) ∧
    group_match_unused d1 g false = group_match_unused d g false := by
  have hbyte : ∀ i, i < 16 → ctrl_byte d1 g i = ctrl_byte d g i := by
    intro i hi
    exact (hagree i hi).1
  constructor
  · intro i hi
    unfold retain_rem
    rw [hbyte i hi, (hagree i hi).2]
  · exact find?_congr _ _ _ (fun i hi =>
      by rw [hbyte i (List.mem_range.mp hi)])

/-- Characterisation of the whole group sweep of `retain`, relative to the
original table `d` of the pass. -/
theorem retain_fold {K V : Type} [DecidableEq K] (f : K → V → Bool)
    (d : TableData K V) :
    ∀ (gl : List Nat) (m1 : HashMap K V),
      gl.Nodup →
      (∀ g ∈ gl, (g + 1) * 16 ≤ d.ctrl.length) →
      m1.data.ctrl.length = d.ctrl.length →
      m1.data.slots.length = d.slots.length →
      d.slots.length = d.ctrl.length →
      (∀ g ∈ gl, ∀ i, i < 16 →
        ctrl_at m1.data (g * 16 + i) = ctrl_at d (g * 16 + i) ∧
        slot_at m1.data (g * 16 + i) = slot_at d (g * 16 + i)) →
      (gl.foldl (fun m' g =>
        { data := (retain_group f m'.data g).1,
          len := m'.len - (retain_group f m'.data g).2 }) m1).data.ctrl.length
        = d.ctrl.length ∧
      (gl.foldl (fun m' g =>
        { data := (retain_group f m'.data g).1,
          len := m'.len - (retain_group f m'.data g).2 }) m1).data.slots.length
        = d.slots.length ∧
      (∀ idx, (∀ g ∈ gl, ∀ i, i < 16 → g * 16 + i ≠ idx) →
        ctrl_at (gl.foldl (fun m' g =>
          { data := (retain_group f m'.data g).1,
            len := m'.len - (retain_group f m'.data g).2 }) m1).data idx =
          ctrl_at m1.data idx ∧
        slot_at (gl.foldl (fun m' g =>
          { data := (retain_group f m'.data g).1,
            len := m'.len - (retain_group f m'.data g).2 }) m1).data idx =
          slot_at m1.data idx) ∧
      (∀ g ∈ gl, ∀ i, i < 16 →
        (retain_rem f d g i = true →
          ctrl_at (gl.foldl (fun m' g =>
            { data := (retain_group f m'.data g).1,
              len := m'.len - (retain_group f m'.data g).2 }) m1).data
            (g * 16 + i) =
            (match group_match_unused d g false with
             | some _ => 128
             | none => 254) ∧
          slot_at (gl.foldl (fun m' g =>
            { data := (retain_group f m'.data g).1,
              len := m'.len - (retain_group f m'.data g).2 }) m1).data
            (g * 16 + i) = none) ∧
        (retain_rem f d g i = false →
          ctrl_at (gl.foldl (fun m' g =>
            { data := (retain_group f m'.data g).1,
              len := m'.len - (retain_group f m'.data g).2 }) m1).data
            (g * 16 + i) = ctrl_at d (g * 16 + i) ∧
          slot_at (gl.foldl (fun m' g =>
            { data := (retain_group f m'.data g).1,
              len := m'.len - (retain_group f m'.data g).2 }) m1).data
            (g * 16 + i) = slot_at d (g * 16 + i))) ∧
      (gl.foldl (fun m' g =>
        { data := (retain_group f m'.data g).1,
          len := m'.len - (retain_group f m'.data g).2 }) m1).len =
        m1.len - (gl.map (fun g =>
          ((List.range 16).filter (retain_rem f d g)).length)).sum := by
  intro gl
  induction gl with
  | nil =>
    intro m1 _ _ h1 h2 _ _
    exact ⟨h1, h2, fun idx _ => ⟨rfl, rfl⟩, fun g hg => absurd hg
      (List.not_mem_nil g), by simp⟩
  | cons g gl ih =>
    intro m1 hnd hbound h1 h2 hd hagree
    have hgbound := hbound g (by simp)
    have hglen : m1.data.slots.length = m1.data.ctrl.length := by
      rw [h1, h2, hd]
    have hcongr := retain_group_congr f d m1.data g
      (fun i hi => hagree g (by simp) i hi)
    obtain ⟨hs1, hs2, hsframe, hsrem, hskeep, hscount⟩ :=
      retain_group_spec f m1.data g hglen (by omega)
    set m2 := (⟨(retain_group f m1.data g).1,
      m1.len - (retain_group f m1.data g).2⟩ : HashMap K V) with hm2
    have hfold : (g :: gl).foldl (fun m' g =>
        { data := (retain_group f m'.data g).1,
          len := m'.len - (retain_group f m'.data g).2 }) m1 =
        gl.foldl (fun m' g =>
          { data := (retain_group f m'.data g).1,
            len := m'.len - (retain_group f m'.data g).2 }) m2 := rfl
    have hnotin : g ∉ gl := (List.nodup_cons.mp hnd).1
    have hm2ctrl : m2.data.ctrl.length = d.ctrl.length := by
      rw [hm2]
      show (retain_group f m1.data g).1.ctrl.length = d.ctrl.length
      rw [hs1, h1]
    have hm2slots : m2.data.slots.length = d.slots.length := by
      rw [hm2]
      show (retain_group f m1.data g).1.slots.length = d.slots.length
      rw [hs2, h2]
    have hm2agree : ∀ g' ∈ gl, ∀ i, i < 16 →
        ctrl_at m2.data (g' * 16 + i) = ctrl_at d (g' * 16 + i) ∧
        slot_at m2.data (g' * 16 + i) = slot_at d (g' * 16 + i) := by
      intro g' hg' i hi
      have hne : ∀ i', i' < 16 → g * 16 + i' ≠ g' * 16 + i := by
        intro i' hi' he
        have : g = g' := by omega
        exact hnotin (this ▸ hg')
      have := hsframe (g' * 16 + i) hne
      rw [show ctrl_at m2.data (g' * 16 + i) =
          ctrl_at (retain_group f m1.data g).1 (g' * 16 + i) from rfl,
        show slot_at m2.data (g' * 16 + i) =
          slot_at (retain_group f m1.data g).1 (g' * 16 + i) from rfl,
        this.1, this.2]
      exact hagree g' (by simp [hg']) i hi
    obtain ⟨ih1, ih2, ihframe, ihslots, ihlen⟩ := ih m2
      (List.nodup_cons.mp hnd).2 (fun g' hg' => hbound g' (by simp [hg']))
      hm2ctrl hm2slots hd hm2agree
    rw [hfold]
    refine ⟨ih1, ih2, ?_, ?_, ?_⟩
    · intro idx hne
      have hstep := hsframe idx (fun i hi => hne g (by simp) i hi)
      have hrest := ihframe idx (fun g' hg' i hi => hne g' (by simp [hg']) i hi)
      rw [hrest.1, hrest.2]
      exact hstep
    · intro g' hg' i hi
      rcases List.mem_cons.mp hg' with rfl | hmem
      · -- the head group: final value set by this step, untouched later
        have hne : ∀ g'' ∈ gl, ∀ i', i' < 16 → g'' * 16 + i' ≠ g' * 16 + i := by
          intro g'' hg'' i' hi' he
          have : g'' = g' := by omega
          exact hnotin (this ▸ hg'')
        have hrest := ihframe (g' * 16 + i) hne
        constructor
        · intro hrem
          have := hsrem i hi (by rw [hcongr.1 i hi]; exact hrem)
          rw [hrest.1, hrest.2]
          refine ⟨?_, this.2⟩
          rw [this.1, hcongr.2]
        · intro hrem
          have := hskeep i hi (by rw [hcongr.1 i hi]; exact hrem)
          rw [hrest.1, hrest.2, this.1, this.2]
          exact hagree g' (by simp) i hi
      · exact ihslots g' hmem i hi
    · rw [ihlen]
      have : m2.len = m1.len -
          ((List.range 16).filter (retain_rem f d g)).length := by
        rw [hm2]
        show m1.len - (retain_group f m1.data g).2 = _
        rw [hscount]
        congr 2
        exact List.filter_congr (fun i hi => hcongr.1 i (List.mem_range.mp hi))
      rw [this, List.map_cons, List.sum_cons]
      omega

theorem sum_le_sum_map {α : Type} (l : List α) (f g : α → Nat)
    (h : ∀ a ∈ l, f a ≤ g a) : (l.map f).sum ≤ (l.map g).sum := by
  induction l with
  | nil => exact Nat.le_refl _
  | cons x xs ih =>
    simp only [List.map_cons, List.sum_cons]
    have := ih (fun a ha => h a (by simp [ha]))
    have := h x (by simp)
    omega

/-- The per-group removal count of `retain` counts exactly the sweep
entries failing the predicate. -/
theorem retain_rem_count {K V : Type} [DecidableEq K] (f : K → V → Bool)
    (d : TableData K V) (g : Nat) :
    (((List.range 16).filterMap (fun i => sweep_entry d g i)).filter
      (fun kv => !f kv.1 kv.2)).length =
    ((List.range 16).filter (retain_rem f d g)).length := by
  rw [length_filter_filterMap, ← List.countP_eq_length_filter]
  refine countP_ext _ _ _ (fun i _ => ?_)
  unfold sweep_entry retain_rem
  by_cases hu : used_ctrl (ctrl_byte d g i) = true
  · rw [if_pos hu, hu]
    cases hs : slot_at d (g * 16 + i) with
    | none => simp
    | some kv => simp
  · have hu' : used_ctrl (ctrl_byte d g i) = false := by simpa using hu
    rw [if_neg hu, hu']
    simp

/-- C7. `retain(p)` removes exactly the entries for which `p` returns
false, decrementing the length by the number removed; the
`EMPTY`-vs-`DELETED` replacement byte of each removed slot is computed once
per group from that group's control bytes as they were before any removal
of the pass, and the same per-group decision is applied to every slot
removed from the group; kept entries are untouched. -/
theorem c7_retain {K V : Type} [DecidableEq K] (hf : K → Nat)
    (f : K → V → Bool) (m : HashMap K V) (hwf : wf hf m = true) :
    (retain f m).len +
      ((occupied_entries m.data).filter (fun kv => !f kv.1 kv.2)).length =
      m.len ∧
    (∀ k v, stored_pair (retain f m).data k v ↔
      (stored_pair m.data k v ∧ f k v = true)) ∧
    (∀ idx k v, idx < capacity_impl m.data →
      occupied_at m.data idx = true → slot_at m.data idx = some (k, v) →
      f k v = false →
      slot_at (retain f m).data idx = none ∧
      ((∃ j, j < 16 ∧ ctrl_byte m.data (idx / 16) j = CTRL_EMPTY) →
        ctrl_at (retain f m).data idx = CTRL_EMPTY) ∧
      ((∀ j, j < 16 → ctrl_byte m.data (idx / 16) j ≠ CTRL_EMPTY) →
        ctrl_at (retain f m).data idx = CTRL_DELETED)) ∧
    (∀ idx k v, idx < capacity_impl m.data →
      occupied_at m.data idx = true → slot_at m.data idx = some (k, v) →
      f k v = true →
      ctrl_at (retain f m).data idx = ctrl_at m.data idx ∧
      slot_at (retain f m).data idx = slot_at m.data idx) := by
  have hdlen := wf_lengths hwf
  have hcap := wf_cap16 hwf
  have hres := retain_fold f m.data (List.range (capacity_impl m.data / 16))
    m (List.nodup_range _)
    (fun g hg => by
      have := List.mem_range.mp hg
      show (g + 1) * 16 ≤ capacity_impl m.data
      omega)
    rfl rfl hdlen (fun g _ i _ => ⟨rfl, rfl⟩)
  obtain ⟨hr1, hr2, _, hrslots, hrlen⟩ := hres
  have hfold_eq : retain f m =
      (List.range (capacity_impl m.data / 16)).foldl (fun m' g =>
        { data := (retain_group f m'.data g).1,
          len := m'.len - (retain_group f m'.data g).2 }) m := rfl
  -- the removal count equals the filtered sweep length
  have hcount : ((occupied_entries m.data).filter
      (fun kv => !f kv.1 kv.2)).length =
      ((List.range (capacity_impl m.data / 16)).map (fun g =>
        ((List.range 16).filter (retain_rem f m.data g)).length)).sum := by
    unfold occupied_entries
    rw [length_filter_flatMap]
    congr 1
    exact List.map_congr_left (fun g _ => retain_rem_count f m.data g)
  -- the total removal count is bounded by the length
  have htotal_le : ((List.range (capacity_impl m.data / 16)).map (fun g =>
      ((List.range 16).filter (retain_rem f m.data g)).length)).sum ≤
      m.len := by
    rw [wf_len hwf]
    unfold occ_count
    refine sum_le_sum_map _ _ _ (fun g _ => ?_)
    rw [← List.countP_eq_length_filter, ← List.countP_eq_length_filter]
    refine countP_le_countP _ _ _ (fun i _ hrem => ?_)
    unfold retain_rem at hrem
    rw [Bool.and_eq_true] at hrem
    exact hrem.1
  -- per-slot access as group/index
  have hslot_spec : ∀ idx, idx < capacity_impl m.data →
      (retain_rem f m.data (idx / 16) (idx % 16) = true →
        ctrl_at (retain f m).data idx =
          (match group_match_unused m.data (idx / 16) false with
           | some _ => 128
           | none => 254) ∧
        slot_at (retain f m).data idx = none) ∧
      (retain_rem f m.data (idx / 16) (idx % 16) = false →
        ctrl_at (retain f m).data idx = ctrl_at m.data idx ∧
        slot_at (retain f m).data idx = slot_at m.data idx) := by
    intro idx hidx
    have hg : idx / 16 < capacity_impl m.data / 16 := by omega
    have := hrslots (idx / 16) (List.mem_range.mpr hg) (idx % 16) (by omega)
    rw [show idx / 16 * 16 + idx % 16 = idx by omega] at this
    rw [hfold_eq]
    exact this
  have hremtrue : ∀ idx k v, idx < capacity_impl m.data →
      occupied_at m.data idx = true → slot_at m.data idx = some (k, v) →
      retain_rem f m.data (idx / 16) (idx % 16) = (!f k v) := by
    intro idx k v hidx hocc hslot
    unfold retain_rem
    rw [ctrl_byte_at, show idx / 16 * 16 + idx % 16 = idx by omega, hslot]
    rw [show used_ctrl (ctrl_at m.data idx) = true from hocc]
    simp
  refine ⟨?_, ?_, ?_, ?_⟩
  · rw [hfold_eq, hcount]
    omega
  · intro k v
    constructor
    · rintro ⟨idx, hidx, hocc, hslot⟩
      have hidx' : idx < capacity_impl m.data := by
        have : capacity_impl (retain f m).data = capacity_impl m.data := by
          rw [hfold_eq]
          exact hr1
        omega
      rcases hrem : retain_rem f m.data (idx / 16) (idx % 16) with _ | _
      · -- kept slot: values carried over from the original table
        obtain ⟨hc, hs⟩ := (hslot_spec idx hidx').2 hrem
        have hocc0 : occupied_at m.data idx = true := by
          unfold occupied_at at hocc ⊢
          rwa [hc] at hocc
        have hslot0 : slot_at m.data idx = some (k, v) := by
          rw [← hs]
          exact hslot
        refine ⟨⟨idx, hidx', hocc0, hslot0⟩, ?_⟩
        have := hremtrue idx k v hidx' hocc0 hslot0
        rw [hrem] at this
        simpa using this.symm
      · -- removed slot: contradiction, its slot is uninitialized
        obtain ⟨_, hs⟩ := (hslot_spec idx hidx').1 hrem
        rw [hs] at hslot
        cases hslot
    · rintro ⟨⟨idx, hidx, hocc, hslot⟩, hkeep⟩
      have hrem : retain_rem f m.data (idx / 16) (idx % 16) = false := by
        rw [hremtrue idx k v hidx hocc hslot, hkeep]
        rfl
      obtain ⟨hc, hs⟩ := (hslot_spec idx hidx).2 hrem
      refine ⟨idx, ?_, ?_, ?_⟩
      · have : capacity_impl (retain f m).data = capacity_impl m.data := by
          rw [hfold_eq]
          exact hr1
        omega
      · unfold occupied_at
        rw [hc]
        exact hocc
      · rw [hs]
        exact hslot
  · intro idx k v hidx hocc hslot hfail
    have hrem : retain_rem f m.data (idx / 16) (idx % 16) = true := by
      rw [hremtrue idx k v hidx hocc hslot, hfail]
      rfl
    obtain ⟨hc, hs⟩ := (hslot_spec idx hidx).1 hrem
    refine ⟨hs, ?_, ?_⟩
    · intro hex
      rw [hc, group_unused_decision_empty m.data (idx / 16) hex]
      rfl
    · intro hnone
      rw [hc, group_unused_decision_deleted m.data (idx / 16) hnone]
      rfl
  · intro idx k v hidx hocc hslot hkeep
    have hrem : retain_rem f m.data (idx / 16) (idx % 16) = false := by
      rw [hremtrue idx k v hidx hocc hslot, hkeep]
      rfl
    exact (hslot_spec idx hidx).2 hrem

set_option maxRecDepth 16384 in
/-- Witness for C7: retaining the even keys of the reachable full
capacity-16 map. -/
theorem c7_retain_witness :
    (retain (fun k _ => k % 2 == 0) full_map).len +
      ((occupied_entries full_map.data).filter
        (fun kv => !(kv.1 % 2 == 0))).length = full_map.len ∧
    (∀ k v, stored_pair (retain (fun k _ => k % 2 == 0) full_map).data k v ↔
      (stored_pair full_map.data k v ∧ (k % 2 == 0) = true)) ∧
    (∀ idx k v, idx < capacity_impl full_map.data →
      occupied_at full_map.data idx = true →
      slot_at full_map.data idx = some (k, v) →
      (k % 2 == 0) = false →
      slot_at (retain (fun k _ => k % 2 == 0) full_map).data idx = none ∧
      ((∃ j, j < 16 ∧ ctrl_byte full_map.data (idx / 16) j = CTRL_EMPTY) →
        ctrl_at (retain (fun k _ => k % 2 == 0) full_map).data idx =
          CTRL_EMPTY) ∧
      ((∀ j, j < 16 → ctrl_byte full_map.data (idx / 16) j ≠ CTRL_EMPTY) →
        ctrl_at (retain (fun k _ => k % 2 == 0) full_map).data idx =
          CTRL_DELETED)) ∧
    (∀ idx k v, idx < capacity_impl full_map.data →
      occupied_at full_map.data idx = true →
      slot_at full_map.data idx = some (k, v) →
      (k % 2 == 0) = true →
      ctrl_at (retain (fun k _ => k % 2 == 0) full_map).data idx =
        ctrl_at full_map.data idx ∧
      slot_at (retain (fun k _ => k % 2 == 0) full_map).data idx =
        slot_at full_map.data idx) :=
  c7_retain hf_id (fun k _ => k % 2 == 0) full_map (by decide)

/-! ### Characterisation of the iterator -/

theorem sweep_entry_flat {K V : Type} (d : TableData K V) (g i : Nat) :
    sweep_entry d g i = flat_entry d (g * 16 + i) := rfl

theorem used_mask_eq_rest {K V : Type} (d : TableData K V) (g : Nat) :
    used_mask d g = mask_rest d g 0 := by
  unfold used_mask mask_rest
  refine List.map_congr_left (fun i _ => ?_)
  rw [decide_eq_true (Nat.zero_le i), Bool.and_true]

theorem findIdx?_map_range' (f : Nat → Bool) :
    ∀ (n s j : Nat),
      ((List.range' s n).map f).findIdx? (fun b => b) j =
        ((List.range' s n).find? f).map (fun i => i - s + j) := by
  intro n
  induction n with
  | zero => intro s j; rfl
  | succ n ih =>
    intro s j
    rw [List.range'_succ, List.map_cons, List.findIdx?_cons, List.find?_cons]
    by_cases hf : f s = true
    · rw [hf]
      simp
    · have hf' : f s = false := by simpa using hf
      rw [hf']
      simp only [Bool.false_eq_true, if_false]
      rw [ih (s + 1) (j + 1)]
      cases hres : (List.range' (s + 1) n).find? f with
      | none => rfl
      | some i =>
        have hmem := List.mem_of_find?_eq_some hres
        have := (List.mem_range'_1.mp hmem).1
        simp only [Option.map_some']
        congr 1
        omega

theorem find?_range'_first (f : Nat → Bool) :
    ∀ (n s i0 : Nat), (List.range' s n).find? f = some i0 →
      ∀ i, s ≤ i → i < i0 → f i = false := by
  intro n
  induction n with
  | zero => intro s i0 h; cases h
  | succ n ih =>
    intro s i0 h i hsi hii
    rw [List.range'_succ, List.find?_cons] at h
    by_cases hf : f s = true
    · rw [hf] at h
      simp only [if_true] at h
      injection h with h
      omega
    · have hf' : f s = false := by simpa using hf
      rw [hf'] at h
      simp only [Bool.false_eq_true, if_false] at h
      rcases Nat.eq_or_lt_of_le hsi with rfl | hlt
      · exact hf'
      · exact ih (s + 1) i0 h i hlt hii

/-- The cursor search of `Iter::next` on the carried mask is the flat search
within the group. -/
theorem mask_findIdx {K V : Type} (d : TableData K V) (g c : Nat)
    (hc : c ≤ 16) :
    (mask_rest d g c).findIdx? (fun b => b) =
      ((List.range' (g * 16 + c) (16 - c)).find?
        (fun idx => used_ctrl (ctrl_at d idx))).map (fun idx => idx % 16) := by
  unfold mask_rest
  rw [List.range_eq_range', findIdx?_map_range']
  have hsplit : List.range' 0 16 =
      List.range' 0 c ++ List.range' c (16 - c) := by
    have := List.range'_append 0 c (16 - c) 1
    simp only [Nat.one_mul, Nat.zero_add] at this
    rw [this]
    congr 1
    omega
  rw [hsplit, List.find?_append]
  have hleft : (List.range' 0 c).find?
      (fun i => used_ctrl (ctrl_byte d g i) && decide (c ≤ i)) = none := by
    rw [List.find?_eq_none]
    intro i hi
    have := (List.mem_range'_1.mp hi).2
    simp only [Bool.and_eq_true, decide_eq_true_eq]
    rintro ⟨_, h⟩
    omega
  rw [hleft]
  simp only [Option.none_or]
  have hcongr : (List.range' c (16 - c)).find?
      (fun i => used_ctrl (ctrl_byte d g i) && decide (c ≤ i)) =
      (List.range' c (16 - c)).find?
        (fun i => used_ctrl (ctrl_at d (g * 16 + i))) := by
    refine find?_congr _ _ _ (fun i hi => ?_)
    have := (List.mem_range'_1.mp hi).1
    have hd : decide (c ≤ i) = true := by simpa using this
    rw [hd, Bool.and_true]
    rfl
  rw [hcongr]
  have hflat : List.range' (g * 16 + c) (16 - c) =
      (List.range' c (16 - c)).map (fun i => g * 16 + i) := by
    have := List.map_add_range' (g * 16) c (16 - c) 1
    rw [← this]
  rw [hflat, List.find?_map]
  cases hres : (List.range' c (16 - c)).find?
      (fun i => used_ctrl (ctrl_at d (g * 16 + i))) with
  | none =>
    have hres' : (List.range' c (16 - c)).find?
        ((fun idx => used_ctrl (ctrl_at d idx)) ∘ fun i => g * 16 + i) =
        none := hres
    rw [hres']
    rfl
  | some i =>
    have hres' : (List.range' c (16 - c)).find?
        ((fun idx => used_ctrl (ctrl_at d idx)) ∘ fun i => g * 16 + i) =
        some i := hres
    rw [hres']
    have hmem := List.mem_of_find?_eq_some hres
    have h1 := (List.mem_range'_1.mp hmem).1
    have h2 := (List.mem_range'_1.mp hmem).2
    simp only [Option.map_some']
    congr 1
    omega

/-- Clearing the first found bit advances the mask to the next cursor. -/
theorem mask_rest_set {K V : Type} (d : TableData K V) (g c i0 : Nat)
    (h16 : i0 < 16) (hc : c ≤ i0)
    (hfirst : ∀ i, c ≤ i → i < i0 → used_ctrl (ctrl_byte d g i) = false) :
    (mask_rest d g c).set i0 false = mask_rest d g (i0 + 1) := by
  have hlen : (mask_rest d g c).length = 16 := by
    unfold mask_rest
    simp
  have hlen2 : (mask_rest d g (i0 + 1)).length = 16 := by
    unfold mask_rest
    simp
  refine List.ext_getElem (by simp [hlen, hlen2]) ?_
  intro i hi1 hi2
  have hi16 : i < 16 := by
    have := List.length_set (mask_rest d g c) i0 false
    omega
  simp only [List.getElem_set, mask_rest, List.getElem_map,
    List.getElem_range]
  by_cases hieq : i0 = i
  · subst hieq
    have : decide (i0 + 1 ≤ i0) = false := by simp
    rw [this, Bool.and_false]
    simp
  · rw [if_neg hieq]
    rcases Nat.lt_trichotomy i i0 with hlt | heq | hgt
    · by_cases hci : c ≤ i
      · rw [hfirst i hci hlt]
        simp
      · have h1 : decide (c ≤ i) = false := by simpa using hci
        have h2 : decide (i0 + 1 ≤ i) = false := by
          simp only [decide_eq_false_iff_not]
          omega
        rw [h1, h2]
    · exact absurd heq.symm hieq
    · have h1 : decide (c ≤ i) = true := by
        simp only [decide_eq_true_eq]
        omega
      have h2 : decide (i0 + 1 ≤ i) = true := by
        simp only [decide_eq_true_eq]
        omega
      rw [h1, h2]

/-- The group-wise sweep is the filter of the flat index range. -/
theorem occupied_entries_flat {K V : Type} (d : TableData K V) :
    occupied_entries d =
      (List.range (capacity_impl d / 16 * 16)).filterMap (flat_entry d) := by
  unfold occupied_entries
  generalize capacity_impl d / 16 = n
  induction n with
  | zero => rfl
  | succ n ih =>
    rw [List.range_succ, List.flatMap_append, ih]
    have hr : List.range ((n + 1) * 16) =
        List.range (n * 16) ++ (List.range 16).map (fun i => n * 16 + i) := by
      have := List.range_add (n * 16) 16
      rw [show (n + 1) * 16 = n * 16 + 16 by ring, this]
    rw [hr, List.filterMap_append, List.filterMap_map]
    congr 1
    simp only [List.flatMap_cons, List.flatMap_nil, List.append_nil]
    rfl

theorem first_used_bounds {K V : Type} {d : TableData K V}
    {bound p idx : Nat} (h : first_used d bound p = some idx) :
    p ≤ idx ∧ idx < bound ∧ used_ctrl (ctrl_at d idx) = true := by
  unfold first_used at h
  have hmem := List.mem_of_find?_eq_some h
  have h1 := (List.mem_range'_1.mp hmem).1
  have h2 := (List.mem_range'_1.mp hmem).2
  have hp := List.find?_some h
  exact ⟨h1, by omega, by simpa using hp⟩

theorem first_used_first {K V : Type} {d : TableData K V}
    {bound p idx : Nat} (h : first_used d bound p = some idx) :
    ∀ i, p ≤ i → i < idx → used_ctrl (ctrl_at d i) = false := by
  unfold first_used at h
  exact find?_range'_first _ _ _ _ h

theorem entries_from_nil {K V : Type} (d : TableData K V) (bound p : Nat)
    (h : first_used d bound p = none) : entries_from d bound p = [] := by
  unfold first_used at h
  rw [List.find?_eq_none] at h
  unfold entries_from
  rw [List.filterMap_eq_nil_iff]
  intro idx hidx
  unfold flat_entry
  rw [if_neg ?_]
  intro hu
  exact absurd hu (by simpa using h idx hidx)

theorem entries_from_step {K V : Type} {d : TableData K V}
    {bound p idx : Nat} (h : first_used d bound p = some idx) :
    entries_from d bound p =
      (flat_entry d idx).toList ++ entries_from d bound (idx + 1) := by
  obtain ⟨hpi, hib, _⟩ := first_used_bounds h
  have hfirst := first_used_first h
  unfold entries_from
  have hsplit : List.range' p (bound - p) =
      (List.range' p (idx - p) ++ [idx]) ++
        List.range' (idx + 1) (bound - (idx + 1)) := by
    have h1 : List.range' p (idx - p) ++ List.range' (p + 1 * (idx - p)) 1 =
        List.range' p (1 + (idx - p)) := List.range'_append p (idx - p) 1 1
    have h2 : List.range' p (idx + 1 - p) ++
        List.range' (p + 1 * (idx + 1 - p)) (bound - (idx + 1)) =
        List.range' p (bound - (idx + 1) + (idx + 1 - p)) :=
      List.range'_append p (idx + 1 - p) (bound - (idx + 1)) 1
    simp only [Nat.one_mul] at h1 h2
    rw [show p + (idx + 1 - p) = idx + 1 by omega,
      show bound - (idx + 1) + (idx + 1 - p) = bound - p by omega] at h2
    rw [show p + (idx - p) = idx by omega] at h1
    rw [show (1 : Nat) + (idx - p) = idx + 1 - p by omega] at h1
    rw [← h2, ← h1, List.range'_one]
  rw [hsplit, List.filterMap_append, List.filterMap_append]
  have hleft : (List.range' p (idx - p)).filterMap (flat_entry d) = [] := by
    rw [List.filterMap_eq_nil_iff]
    intro i hi
    have h1 := (List.mem_range'_1.mp hi).1
    have h2 := (List.mem_range'_1.mp hi).2
    unfold flat_entry
    rw [if_neg ?_]
    intro hu
    rw [hfirst i h1 (by omega)] at hu
    cases hu
  rw [hleft, List.nil_append]
  congr 1

/-- Splitting the flat search at a group boundary. -/
theorem first_used_split {K V : Type} (d : TableData K V) (gc g c : Nat)
    (hg : g < gc) (hc : c ≤ 16) :
    first_used d (gc * 16) (g * 16 + c) =
      ((List.range' (g * 16 + c) (16 - c)).find?
        (fun idx => used_ctrl (ctrl_at d idx))).or
        (first_used d (gc * 16) ((g + 1) * 16)) := by
  unfold first_used
  have hsplit : List.range' (g * 16 + c) (gc * 16 - (g * 16 + c)) =
      List.range' (g * 16 + c) (16 - c) ++
        List.range' ((g + 1) * 16) (gc * 16 - (g + 1) * 16) := by
    have h1 : List.range' (g * 16 + c) (16 - c) ++
        List.range' (g * 16 + c + 1 * (16 - c)) (gc * 16 - (g + 1) * 16) =
        List.range' (g * 16 + c) (gc * 16 - (g + 1) * 16 + (16 - c)) :=
      List.range'_append _ _ _ 1
    simp only [Nat.one_mul] at h1
    rw [show g * 16 + c + (16 - c) = (g + 1) * 16 by omega,
      show gc * 16 - (g + 1) * 16 + (16 - c) = gc * 16 - (g * 16 + c) by
        omega] at h1
    exact h1.symm
  rw [hsplit, List.find?_append]

/-- Control bytes past the buffer read as `EMPTY` in the model (the source
never reads them: the loop stops at `group_count`). -/
theorem ctrl_at_oob {K V : Type} (d : TableData K V) (idx : Nat)
    (h : capacity_impl d ≤ idx) : ctrl_at d idx = 128 :=
  getD_of_ge d.ctrl idx 128 h

/-- The inner loop of `Iter::next` finds exactly the first used slot at or
after the current flat position, and leaves the successor mask. -/
theorem iter_loop_spec {K V : Type} (d : TableData K V) (gc : Nat)
    (hcap : capacity_impl d = gc * 16) :
    ∀ (r g c : Nat) (mask : List Bool), g + r = gc → c ≤ 16 →
      (c = 0 ∨ mask = mask_rest d g c) → ∀ fuel, r < fuel →
      iter_loop d gc fuel g mask c =
        match first_used d (gc * 16) (g * 16 + c) with
        | none => none
        | some idx =>
            some (idx / 16, idx % 16, mask_rest d (idx / 16) (idx % 16 + 1)) := by
  intro r
  induction r with
  | zero =>
    intro g c mask hg hc hmask fuel hfuel
    obtain ⟨fuel, rfl⟩ : ∃ f, fuel = f + 1 :=
      ⟨fuel - 1, by omega⟩
    have hg' : g = gc := by omega
    have hmask' : (if c = 0 then used_mask d g else mask) =
        mask_rest d g c := by
      by_cases hc0 : c = 0
      · rw [if_pos hc0, hc0]
        exact used_mask_eq_rest d g
      · rw [if_neg hc0]
        exact hmask.resolve_left hc0
    have hfind : (List.range' (g * 16 + c) (16 - c)).find?
        (fun idx => used_ctrl (ctrl_at d idx)) = none := by
      rw [List.find?_eq_none]
      intro i hi
      have h1 := (List.mem_range'_1.mp hi).1
      rw [ctrl_at_oob d i (by omega)]
      simp [used_ctrl]
    have hnone : first_used d (gc * 16) (g * 16 + c) = none := by
      unfold first_used
      rw [show gc * 16 - (g * 16 + c) = 0 by omega]
      rfl
    rw [hnone]
    show (match (if c = 0 then used_mask d g else mask).findIdx?
        (fun b => b) with
      | some c' => some (g, c', (if c = 0 then used_mask d g else
          mask).set c' false)
      | none => if gc ≤ g + 1 then none
          else iter_loop d gc fuel (g + 1) mask 0) = none
    rw [hmask', mask_findIdx d g c hc, hfind]
    simp only [Option.map_none']
    rw [if_pos (by omega)]
  | succ r ih =>
    intro g c mask hg hc hmask fuel hfuel
    obtain ⟨fuel, rfl⟩ : ∃ f, fuel = f + 1 :=
      ⟨fuel - 1, by omega⟩
    have hglt : g < gc := by omega
    have hmask' : (if c = 0 then used_mask d g else mask) =
        mask_rest d g c := by
      by_cases hc0 : c = 0
      · rw [if_pos hc0, hc0]
        exact used_mask_eq_rest d g
      · rw [if_neg hc0]
        exact hmask.resolve_left hc0
    rw [first_used_split d gc g c hglt hc]
    show (match (if c = 0 then used_mask d g else mask).findIdx?
        (fun b => b) with
      | some c' => some (g, c', (if c = 0 then used_mask d g else
          mask).set c' false)
      | none => if gc ≤ g + 1 then none
          else iter_loop d gc fuel (g + 1) mask 0) = _
    rw [hmask', mask_findIdx d g c hc]
    cases hfind : (List.range' (g * 16 + c) (16 - c)).find?
        (fun idx => used_ctrl (ctrl_at d idx)) with
    | some idx =>
      have hmem := List.mem_of_find?_eq_some hfind
      have h1 := (List.mem_range'_1.mp hmem).1
      have h2 := (List.mem_range'_1.mp hmem).2
      have hdiv : idx / 16 = g := by omega
      have hmod : idx % 16 = idx - g * 16 := by omega
      have hset : (mask_rest d g c).set (idx % 16) false =
          mask_rest d g (idx % 16 + 1) := by
        refine mask_rest_set d g c (idx % 16) (by omega) (by omega) ?_
        intro i hci hi
        have := find?_range'_first _ _ _ _ hfind (g * 16 + i)
          (by omega) (by omega)
        simpa [ctrl_byte] using this
      simp only [Option.map_some']
      show some (g, idx % 16, (mask_rest d g c).set (idx % 16) false) =
          some (idx / 16, idx % 16, mask_rest d (idx / 16) (idx % 16 + 1))
      rw [hset, hdiv]
    | none =>
      simp only [Option.map_none']
      show (if gc ≤ g + 1 then none
          else iter_loop d gc fuel (g + 1) mask 0) =
        match first_used d (gc * 16) ((g + 1) * 16) with
        | none => none
        | some idx =>
            some (idx / 16, idx % 16, mask_rest d (idx / 16) (idx % 16 + 1))
      by_cases hlast : gc ≤ g + 1
      · rw [if_pos hlast]
        have hgc1 : g + 1 = gc := by omega
        have hnone : first_used d (gc * 16) ((g + 1) * 16) = none := by
          unfold first_used
          rw [hgc1, show gc * 16 - gc * 16 = 0 by omega]
          rfl
        rw [hnone]
      · rw [if_neg hlast]
        have := ih (g + 1) 0 mask (by omega) (by omega) (Or.inl rfl)
          fuel (by omega)
        rw [show (g + 1) * 16 + 0 = (g + 1) * 16 by omega] at this
        exact this

theorem iter_next_eq {K V : Type} (m : HashMap K V) (st : IterState) :
    iter_next m st =
      if capacity_impl m.data ≤ st.group * 16 + st.cursor then none
      else
        match iter_loop m.data (capacity_impl m.data / 16)
            (capacity_impl m.data / 16 + 1) st.group st.mask st.cursor with
        | none => none
        | some (g, c, mask') =>
          match slot_at m.data (g * 16 + c) with
          | some kv =>
              some (kv, { group := g, mask := mask', cursor := c + 1,
                          count := st.count + 1 })
          | none => none := rfl

theorem iter_to_list_succ {K V : Type} (m : HashMap K V) (fuel : Nat)
    (st : IterState) :
    iter_to_list m (fuel + 1) st =
      match iter_next m st with
      | none => []
      | some (kv, st') => kv :: iter_to_list m fuel st' := rfl

/-- Running the iterator from any reachable state yields exactly the sweep
tail from the current flat position. -/
theorem iter_run {K V : Type} (m : HashMap K V) (gc : Nat)
    (hcap : capacity_impl m.data = gc * 16)
    (hsome : ∀ idx, idx < capacity_impl m.data →
      used_ctrl (ctrl_at m.data idx) = true →
      (slot_at m.data idx).isSome = true) :
    ∀ (fuel g c cnt : Nat) (mask : List Bool), g ≤ gc → c ≤ 16 →
      (c = 0 ∨ mask = mask_rest m.data g c) →
      (entries_from m.data (gc * 16) (g * 16 + c)).length < fuel →
      iter_to_list m fuel
          { group := g, mask := mask, cursor := c, count := cnt } =
        entries_from m.data (gc * 16) (g * 16 + c) := by
  intro fuel
  induction fuel with
  | zero => intro g c cnt mask _ _ _ hlen; omega
  | succ fuel ih =>
    intro g c cnt mask hg hc hmask hlen
    have hdiv16 : capacity_impl m.data / 16 = gc := by
      rw [hcap]
      omega
    have hnext : iter_next m
        { group := g, mask := mask, cursor := c, count := cnt } =
        (if capacity_impl m.data ≤ g * 16 + c then none
         else
           match iter_loop m.data gc (gc + 1) g mask c with
           | none => none
           | some (g', c', mask') =>
             match slot_at m.data (g' * 16 + c') with
             | some kv =>
                 some (kv, { group := g', mask := mask', cursor := c' + 1,
                             count := cnt + 1 })
             | none => none) := by
      rw [iter_next_eq]
      rw [hdiv16]
    by_cases hguard : capacity_impl m.data ≤ g * 16 + c
    · have hend : entries_from m.data (gc * 16) (g * 16 + c) = [] := by
        unfold entries_from
        rw [show gc * 16 - (g * 16 + c) = 0 by omega]
        rfl
      rw [iter_to_list_succ, hnext, if_pos hguard, hend]
    · have hloop := iter_loop_spec m.data gc hcap (gc - g) g c mask
        (by omega) hc hmask (gc + 1) (by omega)
      cases hfu : first_used m.data (gc * 16) (g * 16 + c) with
      | none =>
        rw [hfu] at hloop
        have hloop' : iter_loop m.data gc (gc + 1) g mask c = none := hloop
        rw [iter_to_list_succ, hnext, if_neg hguard, hloop',
          entries_from_nil m.data (gc * 16) (g * 16 + c) hfu]
      | some idx =>
        rw [hfu] at hloop
        have hloop' : iter_loop m.data gc (gc + 1) g mask c =
            some (idx / 16, idx % 16,
              mask_rest m.data (idx / 16) (idx % 16 + 1)) := hloop
        obtain ⟨hpi, hib, hui⟩ := first_used_bounds hfu
        have hs := hsome idx (by omega) hui
        obtain ⟨kv, hkv⟩ := Option.isSome_iff_exists.mp hs
        have hfe : flat_entry m.data idx = some kv := by
          unfold flat_entry
          rw [hui, hkv]
          simp
        have hstep := entries_from_step hfu
        rw [hfe] at hstep
        rw [hloop', if_neg hguard] at hnext
        have hnext2 : iter_next m
            { group := g, mask := mask, cursor := c, count := cnt } =
            (match slot_at m.data (idx / 16 * 16 + idx % 16) with
             | some kv' =>
                 some (kv', (⟨idx / 16,
                   mask_rest m.data (idx / 16) (idx % 16 + 1),
                   idx % 16 + 1, cnt + 1⟩ : IterState))
             | none => none) := hnext
        rw [show idx / 16 * 16 + idx % 16 = idx by omega, hkv] at hnext2
        have hnext' : iter_next m
            { group := g, mask := mask, cursor := c, count := cnt } =
            some (kv, ⟨idx / 16, mask_rest m.data (idx / 16) (idx % 16 + 1),
              idx % 16 + 1, cnt + 1⟩) := hnext2
        rw [iter_to_list_succ, hnext', hstep]
        show kv :: iter_to_list m fuel
            ⟨idx / 16, mask_rest m.data (idx / 16) (idx % 16 + 1),
              idx % 16 + 1, cnt + 1⟩ =
          kv :: entries_from m.data (gc * 16) (idx + 1)
        congr 1
        have hlen' : (entries_from m.data (gc * 16) (idx + 1)).length <
            fuel := by
          rw [hstep, List.length_append] at hlen
          simp only [Option.toList_some, List.length_cons,
            List.length_nil] at hlen
          omega
        have hpos : idx / 16 * 16 + (idx % 16 + 1) = idx + 1 := by omega
        have happ := ih (idx / 16) (idx % 16 + 1) (cnt + 1)
          (mask_rest m.data (idx / 16) (idx % 16 + 1))
          (by omega) (by omega) (Or.inr rfl)
        rw [hpos] at happ
        exact happ hlen'

/-- **C8.**  On a well-formed map, a full iteration yields exactly `len`
pairs; the yielded key set is exactly the set of keys `get` finds (the
inserted-and-not-removed keys); and the yielded list is precisely
`occupied_entries` — the sweep visiting groups in ascending index order
and, within each group, occupied slots in ascending in-group order. -/
theorem c8_iteration {K V : Type} [DecidableEq K] (hf : K → Nat)
    (m : HashMap K V) (hwf : wf hf m = true) :
    (iter_collect m).length = m.len ∧
    (∀ k : K, (∃ v, (k, v) ∈ iter_collect m) ↔
      (∃ v, get hf m k = some v)) ∧
    iter_collect m = occupied_entries m.data := by
  have hcap16 := wf_cap16 hwf
  have hcap : capacity_impl m.data = capacity_impl m.data / 16 * 16 := by
    omega
  have hsome : ∀ idx, idx < capacity_impl m.data →
      used_ctrl (ctrl_at m.data idx) = true →
      (slot_at m.data idx).isSome = true := by
    intro idx hidx hu
    obtain ⟨k, v, hslot, -, -⟩ := wf_occ hwf idx hidx hu
    rw [hslot]
    rfl
  have hlen0 : (entries_from m.data (capacity_impl m.data / 16 * 16) 0).length
      < capacity_impl m.data + 1 := by
    unfold entries_from
    have h1 := List.length_filterMap_le (flat_entry m.data)
      (List.range' 0 (capacity_impl m.data / 16 * 16 - 0))
    rw [List.length_range'] at h1
    omega
  have hrun := iter_run m (capacity_impl m.data / 16) hcap hsome
    (capacity_impl m.data + 1) 0 0 0 (List.replicate 16 false)
    (Nat.zero_le _) (by omega) (Or.inl rfl)
    (by rw [show 0 * 16 + 0 = 0 by omega]; exact hlen0)
  rw [show 0 * 16 + 0 = 0 by omega] at hrun
  have hmain : iter_collect m = occupied_entries m.data := by
    unfold iter_collect iter_init
    rw [hrun, occupied_entries_flat]
    unfold entries_from
    rw [List.range_eq_range']
    rw [show capacity_impl m.data / 16 * 16 - 0 =
      capacity_impl m.data / 16 * 16 by omega]
  refine ⟨?_, ?_, hmain⟩
  · rw [hmain, occupied_entries_length hsome hcap16, wf_len hwf]
  · intro k
    constructor
    · rintro ⟨v, hv⟩
      rw [hmain] at hv
      exact ⟨v, get_of_stored hwf
        ((mem_occupied_entries m.data hcap16 k v).mp hv)⟩
    · rintro ⟨v, hv⟩
      refine ⟨v, ?_⟩
      rw [hmain]
      exact (mem_occupied_entries m.data hcap16 k v).mpr (stored_of_get hv)

set_option maxRecDepth 32768 in
/-- Witness for C8: the fully populated 16-entry map. -/
theorem c8_iteration_witness :
    wf hf_id full_map = true ∧
    ((iter_collect full_map).length = full_map.len ∧
     (∀ k : Nat, (∃ v, (k, v) ∈ iter_collect full_map) ↔
       (∃ v, get hf_id full_map k = some v)) ∧
     iter_collect full_map = occupied_entries full_map.data) :=
  ⟨by decide, c8_iteration hf_id full_map (by decide)⟩

end Maestro
